import Mathlib

/-!
Shallow embedding of the room-detection half-edge graph
(`src/Geometry.h`, `src/RoomGraph.h`, `src/RoomGraph.cpp`).

Coordinates are exact rationals.  The C++ source uses IEEE doubles; on
every concrete input appearing below, each double operation performed by
the source (the snap quotients, the shoelace sums, the centroid sums) is
exact, so the rational model computes the very same values.

The source stores `angle = atan2(dy, dx)` on each half-edge and uses it
only through `<` comparisons when sorting a node's outgoing edges.  The
embedding stores the classical "diamond" pseudo-angle instead, a rational
quantity that is strictly increasing in `atan2(dy, dx)` over the range
`(-pi, pi]`; two direction vectors compare the same way under either
quantity, and they are equal under one iff equal under the other, so the
resulting sorted orders coincide.
-/

set_option maxRecDepth 8192

namespace RoomDetect

/-- 2D point with exact rational coordinates (`Vec2` in `Geometry.h`). -/
structure Vec2 where
  x : ℚ
  y : ℚ
deriving DecidableEq, Repr

/-- Undirected input segment (`Segment` in `Geometry.h`). -/
structure Segment where
  a : Vec2
  b : Vec2
deriving DecidableEq, Repr

/-- Graph node (`RoomGraph::Node`).  `outgoingEdges` holds ids of
half-edges leaving this node. -/
structure Node where
  id : Int
  pos : Vec2
  outgoingEdges : List Int
deriving DecidableEq, Repr

/-- Directed half-edge (`RoomGraph::HalfEdge`).  The C++ fields `from`
and `to` are rendered `fromId` and `toId` (`from` is a Lean keyword);
`next = -1` and `twin = -1` mean "unset", exactly as in the source. -/
structure HalfEdge where
  id : Int
  fromId : Int
  toId : Int
  twin : Int
  next : Int
  used : Bool
  angle : ℚ
deriving DecidableEq, Repr

/-- Extracted room (`RoomGraph::Room`). -/
structure Room where
  polygon : List Vec2
  center : Vec2
  area : ℚ
deriving DecidableEq, Repr

/-- Snap-grid key (`RoomGraph::GridKey`). -/
structure GridKey where
  ix : Int
  iy : Int
deriving DecidableEq, Repr

/-- Whole-graph state (`RoomGraph`'s private members).  `m_nodeIndex` is
the `std::map<GridKey,int>` rendered as an association list; keys are
inserted at most once, so association-list lookup agrees with map
lookup. -/
structure RoomGraph where
  m_nodes : List Node
  m_edges : List HalfEdge
  m_rooms : List Room
  m_nodeIndex : List (GridKey × Int)
  m_snapSize : ℚ
deriving DecidableEq, Repr

/-- The freshly constructed graph (`RoomGraph::RoomGraph`): empty, with
snap grid size `1e-3`. -/
def initGraph : RoomGraph :=
  ⟨[], [], [], [], 1/1000⟩

/-- `RoomGraph::clear`. -/
def clear (g : RoomGraph) : RoomGraph :=
  { g with m_nodes := [], m_edges := [], m_rooms := [], m_nodeIndex := [] }

/-- Floor of a rational as an integer: the value of
`static_cast<int>(std::floor(q))` in the source (exact on the inputs
considered; coordinates are far from `int` overflow). -/
def ratFloor (q : ℚ) : Int :=
  Int.floor q

/-- The snap key of a point: `floor(v / snapSize + 0.5)` per axis
(`RoomGraph::findOrCreateNode`, lines 54-56). -/
def snapKey (snap : ℚ) (p : Vec2) : GridKey :=
  ⟨ratFloor (p.x / snap + 1/2), ratFloor (p.y / snap + 1/2)⟩

/-- `std::map::find` on the rendered node index. -/
def indexFind (idx : List (GridKey × Int)) (k : GridKey) : Option Int :=
  (idx.find? fun pr => pr.1 = k).map (·.2)

/-- `RoomGraph::findOrCreateNode`: return the node id for the snapped
point, creating a node (with the unsnapped position) when the key is
new. -/
def findOrCreateNode (g : RoomGraph) (p : Vec2) : Int × RoomGraph :=
  let key := snapKey g.m_snapSize p
  match indexFind g.m_nodeIndex key with
  | some id => (id, g)
  | none =>
      let id : Int := g.m_nodes.length
      (id, { g with
              m_nodes := g.m_nodes ++ [⟨id, p, []⟩],
              m_nodeIndex := g.m_nodeIndex ++ [(key, id)] })

/-- Exact stand-in for `std::atan2(dy, dx)` (lines 108-115): the diamond
pseudo-angle, strictly increasing in the true angle over `(-pi, pi]`,
with value `0` at direction `(+1,0)`, `1` at `(0,+1)`, `2` at `(-1,0)`,
`-1` at `(0,-1)`.  Only order comparisons of angles are ever used by the
source, and this quantity induces the same order and the same
equalities. -/
def pseudoAngle (dx dy : ℚ) : ℚ :=
  let s := |dx| + |dy|
  if 0 ≤ dx then dy / s
  else if 0 ≤ dy then 2 - dy / s
  else -2 - dy / s

/-- Guarded node lookup: `some` exactly when the id indexes the node
array. -/
def nodeAt? (nodes : List Node) (i : Int) : Option Node :=
  if i < 0 then none else nodes.get? i.toNat

/-- Total node lookup used where the source indexes `m_nodes[i]` with an
index it has already guaranteed valid. -/
def nodeAt (nodes : List Node) (i : Int) : Node :=
  (nodeAt? nodes i).getD ⟨-1, ⟨0, 0⟩, []⟩

/-- Guarded edge lookup: `some` exactly when the id indexes the edge
array. -/
def edgeAt? (edges : List HalfEdge) (i : Int) : Option HalfEdge :=
  if i < 0 then none else edges.get? i.toNat

/-- Total edge lookup (same convention as `nodeAt`). -/
def edgeAt (edges : List HalfEdge) (i : Int) : HalfEdge :=
  (edgeAt? edges i).getD ⟨-1, -1, -1, -1, -1, false, 0⟩

/-- In-place update of one list element (no-op out of range), used to
model the source's writes through `m_nodes[a]` / `m_edges[id]`. -/
def listModify (f : α → α) : Nat → List α → List α
  | _, [] => []
  | 0, a :: l => f a :: l
  | n + 1, a :: l => a :: listModify f n l

/-- `m_nodes[n].outgoingEdges.push_back(eid)` (lines 117-118). -/
def pushOutgoing (nodes : List Node) (n : Int) (eid : Int) : List Node :=
  listModify (fun nd => { nd with outgoingEdges := nd.outgoingEdges ++ [eid] })
    n.toNat nodes

/-- One iteration of the loop of `RoomGraph::buildNodesAndEdges`
(lines 81-122): resolve both endpoints, drop the segment when they
coincide, otherwise append the twinned pair of half-edges and register
them on their source nodes. -/
def addSegment (g : RoomGraph) (s : Segment) : RoomGraph :=
  let r1 := findOrCreateNode g s.a
  let a := r1.1
  let g1 := r1.2
  let r2 := findOrCreateNode g1 s.b
  let b := r2.1
  let g2 := r2.2
  if a = b then g2
  else
    let eid : Int := g2.m_edges.length
    let pa := (nodeAt g2.m_nodes a).pos
    let pb := (nodeAt g2.m_nodes b).pos
    let e1 : HalfEdge :=
      ⟨eid, a, b, eid + 1, -1, false, pseudoAngle (pb.x - pa.x) (pb.y - pa.y)⟩
    let e2 : HalfEdge :=
      ⟨eid + 1, b, a, eid, -1, false, pseudoAngle (pa.x - pb.x) (pa.y - pb.y)⟩
    { g2 with
      m_nodes := pushOutgoing (pushOutgoing g2.m_nodes a eid) b (eid + 1),
      m_edges := g2.m_edges ++ [e1, e2] }

/-- `RoomGraph::buildNodesAndEdges`. -/
def buildNodesAndEdges (g : RoomGraph) (segments : List Segment) : RoomGraph :=
  segments.foldl addSegment g

/-- The sort key used by `RoomGraph::EdgeAngleLess` (line 132):
`m_edges[e].angle`. -/
def angleOf (edges : List HalfEdge) (e : Int) : ℚ :=
  (edgeAt edges e).angle

/-- Insert an edge id into an angle-sorted list (strictly before the
first strictly larger entry), mirroring the comparator
`m_edges[e1].angle < m_edges[e2].angle`. -/
def insertByAngle (edges : List HalfEdge) (x : Int) : List Int → List Int
  | [] => [x]
  | y :: ys =>
      if angleOf edges x < angleOf edges y then x :: y :: ys
      else y :: insertByAngle edges x ys

/-- Sort a list of edge ids ascending by angle.  `std::sort` leaves the
relative order of equal angles unspecified; the spec accepts any order
there, and this insertion sort realises one such order. -/
def sortIdsByAngle (edges : List HalfEdge) (l : List Int) : List Int :=
  l.foldr (insertByAngle edges) []

/-- `RoomGraph::sortOutgoingByAngle` (the `size() <= 1` early-out of the
source is a pure optimisation: sorting such a list returns it
unchanged). -/
def sortOutgoingByAngle (g : RoomGraph) : RoomGraph :=
  { g with
    m_nodes := g.m_nodes.map fun nd =>
      { nd with outgoingEdges := sortIdsByAngle g.m_edges nd.outgoingEdges } }

/-- Position of the first list entry equal to `x`, i.e. the scan of
lines 177-184 (`pos = -1` rendered as `none`). -/
def findPos (x : Int) : List Int → Option Nat
  | [] => none
  | y :: ys => if y = x then some 0 else (findPos x ys).map (· + 1)

/-- The body of the loop of `RoomGraph::buildNextRelations`
(lines 160-193) for one half-edge: stand at `e.to`, locate `e.twin` in
that node's angle-sorted outgoing list, and point `e.next` at the
previous entry in circular order; on any failure leave `e` untouched. -/
def setNextFor (nodes : List Node) (e : HalfEdge) : HalfEdge :=
  if e.toId < 0 ∨ (nodes.length : Int) ≤ e.toId then e
  else if (nodeAt nodes e.toId).outgoingEdges.isEmpty then e
  else
    match findPos e.twin (nodeAt nodes e.toId).outgoingEdges with
    | none => e
    | some pos =>
        { e with next :=
            ((nodeAt nodes e.toId).outgoingEdges.get?
              (((pos : Int) - 1 +
                  ((nodeAt nodes e.toId).outgoingEdges.length : Int)) %
                ((nodeAt nodes e.toId).outgoingEdges.length : Int)).toNat).getD 0 }

/-- `RoomGraph::buildNextRelations`.  The loop reads only `m_nodes` and
the current edge's own fields and writes only that edge's `next`, so the
in-place loop is a map. -/
def buildNextRelations (g : RoomGraph) : RoomGraph :=
  { g with m_edges := g.m_edges.map (setNextFor g.m_nodes) }

/-- `computeSignedArea` (lines 196-212): the shoelace formula, `0` for
fewer than three vertices. -/
def computeSignedArea (poly : List Vec2) : ℚ :=
  if poly.length < 3 then 0
  else
    let n := poly.length
    (1/2) * ((List.range n).foldl
      (fun acc i =>
        let p := (poly.get? i).getD ⟨0, 0⟩
        let q := (poly.get? ((i + 1) % n)).getD ⟨0, 0⟩
        acc + (p.x * q.y - q.x * p.y))
      0)

/-- `computeCentroid` (lines 215-242): area-weighted polygon centroid,
parameterised by the signed area.  (`1/(6*signedArea)` is only ever
evaluated at signed areas of magnitude at least `1e-6`.) -/
def computeCentroid (poly : List Vec2) (signedArea : ℚ) : Vec2 :=
  if poly.length < 3 then ⟨0, 0⟩
  else
    let n := poly.length
    let factor := 1 / (6 * signedArea)
    let sums := (List.range n).foldl
      (fun acc i =>
        let p := (poly.get? i).getD ⟨0, 0⟩
        let q := (poly.get? ((i + 1) % n)).getD ⟨0, 0⟩
        let cross := p.x * q.y - q.x * p.y
        (acc.1 + (p.x + q.x) * cross, acc.2 + (p.y + q.y) * cross))
      ((0 : ℚ), (0 : ℚ))
    ⟨sums.1 * factor, sums.2 * factor⟩

/-- How one inner walk of `RoomGraph::walkCycles` ended.  `closed` is
the `e.next == start.id` break (line 277); `deadEnd` the `e.next < 0`
break (line 274); `revisit` the `e.used` break (line 263); `badNode` the
`fromNode` bounds break (line 269); `badIndex` marks an edge id outside
the array, which in C++ would be undefined behaviour and is proved
unreachable; `fuelOut` marks recursion-budget exhaustion, proved
unreachable. -/
inductive WalkEnd where
  | closed
  | deadEnd
  | revisit
  | badNode
  | badIndex
  | fuelOut
deriving DecidableEq, Repr

/-- Result of one inner walk: the edge array with its new `used` marks,
the accumulated polygon, and how the walk ended. -/
structure WalkOut where
  edges : List HalfEdge
  poly : List Vec2
  reason : WalkEnd
deriving DecidableEq, Repr

/-- `m_edges[i].used = true` (line 266). -/
def markUsed (edges : List HalfEdge) (i : Int) : List HalfEdge :=
  listModify (fun e => { e with used := true }) i.toNat edges

/-- The inner `while (true)` loop of `RoomGraph::walkCycles`
(lines 260-284), as fuel-indexed structural recursion; the caller
supplies more fuel than there are unused edges, and each pass marks a
previously unused edge, so the fuel never runs out (proved below). -/
def walkLoop (nodes : List Node) (startId : Int) :
    Nat → List HalfEdge → Int → List Vec2 → WalkOut
  | 0, edges, _, poly => ⟨edges, poly, .fuelOut⟩
  | fuel + 1, edges, currentId, poly =>
      match edgeAt? edges currentId with
      | none => ⟨edges, poly, .badIndex⟩
      | some e =>
          if e.used then ⟨edges, poly, .revisit⟩
          else
            let edges1 := markUsed edges currentId
            if e.fromId < 0 ∨ (nodes.length : Int) ≤ e.fromId then
              ⟨edges1, poly, .badNode⟩
            else
              let poly1 := poly ++ [(nodeAt nodes e.fromId).pos]
              if e.next < 0 then ⟨edges1, poly1, .deadEnd⟩
              else if e.next = startId then ⟨edges1, poly1, .closed⟩
              else walkLoop nodes startId fuel edges1 e.next poly1

/-- Running state of the outer loop of `walkCycles`, with a ghost `log`
recording, for each walk actually started, how it ended and whether it
emitted a room.  The log instruments the embedding for the statements
below; the `edges`/`rooms` components evolve exactly as in the source. -/
structure CycleState where
  edges : List HalfEdge
  rooms : List Room
  log : List (WalkEnd × Bool)
deriving DecidableEq, Repr

/-- One index `i` of the outer `for` loop of `walkCycles`
(lines 251-309): skip used starts, run the inner walk, then apply the
vertex-count, area-tolerance and orientation filters to decide whether
the accumulated polygon becomes a room. -/
def walkCyclesStep (nodes : List Node) (st : CycleState) (i : Nat) : CycleState :=
  match st.edges.get? i with
  | none => st
  | some start =>
      if start.used then st
      else
        let w := walkLoop nodes start.id (st.edges.length + 1) st.edges start.id []
        if w.poly.length < 3 then
          ⟨w.edges, st.rooms, st.log ++ [(w.reason, false)]⟩
        else
          let signedArea := computeSignedArea w.poly
          if |signedArea| < 1/1000000 then
            ⟨w.edges, st.rooms, st.log ++ [(w.reason, false)]⟩
          else if signedArea ≤ 0 then
            ⟨w.edges, st.rooms, st.log ++ [(w.reason, false)]⟩
          else
            ⟨w.edges,
             st.rooms ++ [⟨w.poly, computeCentroid w.poly signedArea, |signedArea|⟩],
             st.log ++ [(w.reason, true)]⟩

/-- `RoomGraph::walkCycles`, returning the updated graph together with
the ghost walk log. -/
def walkCycles (g : RoomGraph) : RoomGraph × List (WalkEnd × Bool) :=
  let st := (List.range g.m_edges.length).foldl (walkCyclesStep g.m_nodes)
    ⟨g.m_edges, g.m_rooms, []⟩
  ({ g with m_edges := st.edges, m_rooms := st.rooms }, st.log)

/-- `RoomGraph::build` together with the ghost walk log: clear, early
return on empty input, then the four stages. -/
def buildRun (g : RoomGraph) (segments : List Segment) :
    RoomGraph × List (WalkEnd × Bool) :=
  let g0 := clear g
  if segments.isEmpty then (g0, [])
  else
    walkCycles (buildNextRelations (sortOutgoingByAngle
      (buildNodesAndEdges g0 segments)))

/-- `RoomGraph::build`. -/
def build (g : RoomGraph) (segments : List Segment) : RoomGraph :=
  (buildRun g segments).1

/-! Derived quantities and invariant predicates used by the statements
below. -/

/-- Number of half-edges not yet marked `used`. -/
def countUnused (edges : List HalfEdge) : Nat :=
  edges.countP fun e => !e.used

/-- Number of input segments whose two endpoints snap to distinct grid
keys.  Distinct keys is exactly "the endpoints resolve to distinct
nodes": the registry maps each key to one fixed node id within a build
(proved below). -/
def acceptedCount (snap : ℚ) (segments : List Segment) : Nat :=
  segments.countP fun s => decide (snapKey snap s.a ≠ snapKey snap s.b)

/-- Total number of outgoing-list entries over all nodes. -/
def outSum (nodes : List Node) : Nat :=
  (nodes.map fun nd => nd.outgoingEdges.length).sum

/-- A room satisfying the filters of `walkCycles`: at least three
vertices, shoelace area at least the `1e-6` tolerance (hence strictly
positive, i.e. counter-clockwise), and the stored `area` equal to that
signed area. -/
def GoodRoom (r : Room) : Prop :=
  3 ≤ r.polygon.length ∧
  (1 : ℚ)/1000000 ≤ computeSignedArea r.polygon ∧
  0 < computeSignedArea r.polygon ∧
  r.area = computeSignedArea r.polygon

/-- The half-edge successor function on array indices: `next` of the
edge at index `i`, as a natural number (identity outside the array, so
that injectivity can be stated globally). -/
def nextIdx (edges : List HalfEdge) (i : Nat) : Nat :=
  if i < edges.length then (edgeAt edges (i : Int)).next.toNat else i

/-- The edge at index `i` is marked used. -/
def usedAt (edges : List HalfEdge) (i : Nat) : Prop :=
  (edgeAt edges (i : Int)).used = true

/-- The set of used edges is closed under the successor function (it is
a union of complete `next`-cycles). -/
def UsedClosed (edges : List HalfEdge) : Prop :=
  ∀ j : Nat, j < edges.length → usedAt edges j → usedAt edges (nextIdx edges j)

/-- Index of the twin of the edge at index `i`: edges are created in
consecutive pairs. -/
def twinIdx (i : Nat) : Nat :=
  if i % 2 = 0 then i + 1 else i - 1

/-- The circular predecessor position `(p - 1 + n) mod n` used by
`buildNextRelations` (line 190). -/
def prevCirc (p n : Nat) : Nat :=
  (((p : Int) - 1 + (n : Int)) % (n : Int)).toNat

/-- Well-formedness of the node registry: every registered id indexes
the node array, and no two registry entries share an id. -/
structure IdxWF (g : RoomGraph) : Prop where
  vbound : ∀ pr ∈ g.m_nodeIndex, 0 ≤ pr.2 ∧ pr.2 < (g.m_nodes.length : Int)
  vnodup : (g.m_nodeIndex.map Prod.snd).Nodup

/-- Structural well-formedness of the graph as established by
`buildNodesAndEdges` and preserved by the later stages.  All statements
use the total lookups `edgeAt` / `nodeAt`. -/
structure GraphWF (g : RoomGraph) : Prop where
  idx : IdxWF g
  evenE : g.m_edges.length % 2 = 0
  idEq : ∀ i : Nat, i < g.m_edges.length → (edgeAt g.m_edges (i : Int)).id = (i : Int)
  twinEq : ∀ i : Nat, i < g.m_edges.length →
    (edgeAt g.m_edges (i : Int)).twin = (twinIdx i : Int)
  fromValid : ∀ i : Nat, i < g.m_edges.length →
    0 ≤ (edgeAt g.m_edges (i : Int)).fromId ∧
    (edgeAt g.m_edges (i : Int)).fromId < (g.m_nodes.length : Int)
  toValid : ∀ i : Nat, i < g.m_edges.length →
    0 ≤ (edgeAt g.m_edges (i : Int)).toId ∧
    (edgeAt g.m_edges (i : Int)).toId < (g.m_nodes.length : Int)
  fromNeTo : ∀ i : Nat, i < g.m_edges.length →
    (edgeAt g.m_edges (i : Int)).fromId ≠ (edgeAt g.m_edges (i : Int)).toId
  twinFrom : ∀ i : Nat, i < g.m_edges.length →
    (edgeAt g.m_edges (twinIdx i : Int)).fromId = (edgeAt g.m_edges (i : Int)).toId ∧
    (edgeAt g.m_edges (twinIdx i : Int)).toId = (edgeAt g.m_edges (i : Int)).fromId
  outFrom : ∀ n : Nat, n < g.m_nodes.length →
    ∀ eid ∈ (nodeAt g.m_nodes (n : Int)).outgoingEdges,
      0 ≤ eid ∧ eid < (g.m_edges.length : Int) ∧
      (edgeAt g.m_edges eid).fromId = (n : Int)
  outNodup : ∀ n : Nat, n < g.m_nodes.length →
    (nodeAt g.m_nodes (n : Int)).outgoingEdges.Nodup
  outMem : ∀ i : Nat, i < g.m_edges.length →
    (i : Int) ∈ (nodeAt g.m_nodes (edgeAt g.m_edges (i : Int)).fromId).outgoingEdges

/-- All half-edges still unmarked (the state before `walkCycles`). -/
def AllUnused (edges : List HalfEdge) : Prop :=
  ∀ i : Nat, i < edges.length → (edgeAt edges (i : Int)).used = false

/-- The facts about a graph state that make every walk of `walkCycles`
close: ids equal indices, `from` ids valid, `next` total (into the
array) and injective. -/
structure WalkWF (nodes : List Node) (edges : List HalfEdge) : Prop where
  idEq : ∀ i : Nat, i < edges.length → (edgeAt edges (i : Int)).id = (i : Int)
  fromValid : ∀ i : Nat, i < edges.length →
    0 ≤ (edgeAt edges (i : Int)).fromId ∧
    (edgeAt edges (i : Int)).fromId < (nodes.length : Int)
  nextTotal : ∀ i : Nat, i < edges.length →
    0 ≤ (edgeAt edges (i : Int)).next ∧
    (edgeAt edges (i : Int)).next < (edges.length : Int)
  nextInj : ∀ i j : Nat, i < edges.length → j < edges.length →
    nextIdx edges i = nextIdx edges j → i = j

/-- The four input segments of a closed axis-aligned 10 by 10 square. -/
def squareSegs : List Segment :=
  [⟨⟨0, 0⟩, ⟨10, 0⟩⟩, ⟨⟨10, 0⟩, ⟨10, 10⟩⟩, ⟨⟨10, 10⟩, ⟨0, 10⟩⟩, ⟨⟨0, 10⟩, ⟨0, 0⟩⟩]

/-- The expected single room of the square input. -/
def squareRoom : Room :=
  ⟨[⟨0, 0⟩, ⟨10, 0⟩, ⟨10, 10⟩, ⟨0, 10⟩], ⟨5, 5⟩, 100⟩

/-- The square's graph after the first three stages (before
`walkCycles`). -/
def preGraphSquare : RoomGraph :=
  buildNextRelations (sortOutgoingByAngle
    (buildNodesAndEdges (clear initGraph) squareSegs))

/-- A thin triangle whose area is exactly the `1e-6` tolerance: vertices
`(0,0)`, `(1,0)`, `(1/2, 2e-6)`.  All three snap to distinct grid keys,
and the IEEE-double computation of the source is exact on these values
(each coordinate quotient and each shoelace product is an exact double),
so the source computes exactly this area as well. -/
def boundaryTri : List Segment :=
  [⟨⟨0, 0⟩, ⟨1, 0⟩⟩, ⟨⟨1, 0⟩, ⟨1/2, 1/500000⟩⟩, ⟨⟨1/2, 1/500000⟩, ⟨0, 0⟩⟩]

/-- `edges'` is `edges` with some subset of the `used` flags switched on
and nothing else changed: the relation between the edge array before and
after any portion of `walkCycles` (which writes only `used`). -/
def SameMod (edges edges' : List HalfEdge) : Prop :=
  edges'.length = edges.length ∧
  ∀ i : Nat, i < edges.length →
    edgeAt edges' (i : Int) = edgeAt edges (i : Int) ∨
    edgeAt edges' (i : Int) = { edgeAt edges (i : Int) with used := true }

/-! ### Generic lemmas about the list helpers -/

theorem listModify_length (f : α → α) :
    ∀ (n : Nat) (l : List α), (listModify f n l).length = l.length := by
  intro n l
  induction l generalizing n with
  | nil => simp [listModify]
  | cons a l ih =>
      cases n with
      | zero => simp [listModify]
      | succ n => simp [listModify, ih n]

theorem listModify_get? (f : α → α) :
    ∀ (n : Nat) (l : List α) (i : Nat),
      (listModify f n l).get? i = if i = n then (l.get? i).map f else l.get? i := by
  intro n l
  induction l generalizing n with
  | nil => intro i; simp [listModify]
  | cons a l ih =>
      intro i
      cases n with
      | zero =>
          cases i with
          | zero => simp [listModify]
          | succ i => simp [listModify]
      | succ n =>
          cases i with
          | zero => simp [listModify]
          | succ i => simpa [listModify] using ih n i

theorem findPos_spec (x : Int) :
    ∀ (l : List Int) (p : Nat), findPos x l = some p →
      p < l.length ∧ l.get? p = some x := by
  intro l
  induction l with
  | nil => intro p h; simp [findPos] at h
  | cons y ys ih =>
      intro p h
      by_cases hy : y = x
      · simp [findPos, hy] at h
        subst h
        simp [hy]
      · simp [findPos, hy] at h
        obtain ⟨q, hq, rfl⟩ := h
        obtain ⟨h1, h2⟩ := ih q hq
        refine ⟨?_, by simpa using h2⟩
        simp only [List.length_cons]
        omega

theorem findPos_some_of_mem (x : Int) :
    ∀ (l : List Int), x ∈ l → ∃ p, findPos x l = some p := by
  intro l
  induction l with
  | nil => intro h; cases h
  | cons y ys ih =>
      intro h
      by_cases hy : y = x
      · exact ⟨0, by simp [findPos, hy]⟩
      · have : x ∈ ys := by
          cases h with
          | head => exact absurd rfl hy
          | tail _ h => exact h
        obtain ⟨p, hp⟩ := ih this
        exact ⟨p + 1, by simp [findPos, hy, hp]⟩

theorem insertByAngle_perm (edges : List HalfEdge) (x : Int) :
    ∀ (l : List Int), (insertByAngle edges x l).Perm (x :: l) := by
  intro l
  induction l with
  | nil => simp [insertByAngle]
  | cons y ys ih =>
      by_cases h : angleOf edges x < angleOf edges y
      · simp [insertByAngle, h]
      · simp only [insertByAngle, if_neg h]
        exact (ih.cons y).trans (List.Perm.swap x y ys)

theorem sortIdsByAngle_perm (edges : List HalfEdge) :
    ∀ (l : List Int), (sortIdsByAngle edges l).Perm l := by
  intro l
  induction l with
  | nil => simp [sortIdsByAngle]
  | cons y ys ih =>
      have h1 : sortIdsByAngle edges (y :: ys)
          = insertByAngle edges y (sortIdsByAngle edges ys) := rfl
      rw [h1]
      exact (insertByAngle_perm edges y _).trans (ih.cons y)

/-! ### Snap-size preservation and rebuild idempotence (C9) -/

theorem findOrCreateNode_snapSize (g : RoomGraph) (p : Vec2) :
    (findOrCreateNode g p).2.m_snapSize = g.m_snapSize := by
  unfold findOrCreateNode
  dsimp only
  split <;> rfl

theorem addSegment_snapSize (g : RoomGraph) (s : Segment) :
    (addSegment g s).m_snapSize = g.m_snapSize := by
  have h1 := findOrCreateNode_snapSize g s.a
  have h2 := findOrCreateNode_snapSize (findOrCreateNode g s.a).2 s.b
  unfold addSegment
  dsimp only
  split
  · rw [h2, h1]
  · show (findOrCreateNode (findOrCreateNode g s.a).2 s.b).2.m_snapSize = _
    rw [h2, h1]

theorem buildNodesAndEdges_snapSize :
    ∀ (segs : List Segment) (g : RoomGraph),
      (buildNodesAndEdges g segs).m_snapSize = g.m_snapSize := by
  intro segs
  induction segs with
  | nil => intro g; rfl
  | cons s ss ih =>
      intro g
      show (buildNodesAndEdges (addSegment g s) ss).m_snapSize = _
      rw [ih, addSegment_snapSize]

theorem build_snapSize (g : RoomGraph) (segs : List Segment) :
    (build g segs).m_snapSize = g.m_snapSize := by
  unfold build buildRun
  dsimp only
  split
  · rfl
  · show (walkCycles (buildNextRelations (sortOutgoingByAngle
        (buildNodesAndEdges (clear g) segs)))).1.m_snapSize = g.m_snapSize
    show (buildNodesAndEdges (clear g) segs).m_snapSize = g.m_snapSize
    rw [buildNodesAndEdges_snapSize]
    rfl

theorem clear_eq_of_snapSize (g g' : RoomGraph)
    (h : g.m_snapSize = g'.m_snapSize) : clear g = clear g' := by
  have e1 : clear g = ⟨[], [], [], [], g.m_snapSize⟩ := rfl
  have e2 : clear g' = ⟨[], [], [], [], g'.m_snapSize⟩ := rfl
  rw [e1, e2, h]

theorem build_eq_of_snapSize (g g' : RoomGraph) (segs : List Segment)
    (h : g.m_snapSize = g'.m_snapSize) : build g segs = build g' segs := by
  unfold build buildRun
  rw [clear_eq_of_snapSize g g' h]

/-- C9: calling `build` twice in succession with the same input yields
an identical room list, because `build` begins by discarding all prior
nodes, edges, rooms and the node index (`clear`), and nothing else of
the prior state influences construction (the snap size is never
modified). -/
theorem claim_C9 (g : RoomGraph) (segs : List Segment) :
    (build (build g segs) segs).m_rooms = (build g segs).m_rooms := by
  rw [build_eq_of_snapSize (build g segs) g segs (build_snapSize g segs)]

/-! ### Concrete resolutions of the node registry (C2) -/

unseal Rat.add Rat.mul Rat.inv Rat.sub in
/-- C2 (counterexample): with the default grid size `1e-3`, the claim
fails at its first conjunct: `(0,0)` quantizes to key `(0,0)` while
`(0.0005, 0.0005)` quantizes to `(1,1)` (the quotient `0.0005/0.001 =
0.5` lands exactly on the round-half-up boundary), so the registry
resolves the two points to DISTINCT node ids.  The double arithmetic of
the source is exact here: `double(0.0005) = double(0.001)/2`, so the
C++ quotient is exactly `0.5` as well. -/
theorem claim_C2_counterexample :
    ¬ (((findOrCreateNode (findOrCreateNode initGraph ⟨0, 0⟩).2
          ⟨1/2000, 1/2000⟩).1 = (findOrCreateNode initGraph ⟨0, 0⟩).1) ∧
       ((findOrCreateNode (findOrCreateNode initGraph ⟨0, 0⟩).2
          ⟨1/100, 1/100⟩).1 ≠ (findOrCreateNode initGraph ⟨0, 0⟩).1)) := by
  decide

unseal Rat.add Rat.mul Rat.inv Rat.sub in
/-- C2 (amended): with the default grid size `1e-3`, the registry
resolves `(0,0)` and `(0.0005,0.0005)` to distinct node ids (the
half-cell point rounds up to the next key), and resolves `(0,0)` and
`(0.01,0.01)` to distinct node ids. -/
theorem claim_C2_amended :
    ((findOrCreateNode (findOrCreateNode initGraph ⟨0, 0⟩).2
        ⟨1/2000, 1/2000⟩).1 ≠ (findOrCreateNode initGraph ⟨0, 0⟩).1) ∧
    ((findOrCreateNode (findOrCreateNode initGraph ⟨0, 0⟩).2
        ⟨1/100, 1/100⟩).1 ≠ (findOrCreateNode initGraph ⟨0, 0⟩).1) := by
  decide

/-! ### The 10 by 10 square (C5) -/

unseal Rat.add Rat.mul Rat.inv Rat.sub in
/-- C5: building from the four segments of a single closed axis-aligned
10 by 10 square yields exactly one room, with a 4-vertex polygon, area
`100`, and centroid `(5,5)`.  (On these integer coordinates every double
operation of the source is exact.) -/
theorem claim_C5 :
    (build initGraph squareSegs).m_rooms =
      [⟨[⟨0, 0⟩, ⟨10, 0⟩, ⟨10, 10⟩, ⟨0, 10⟩], ⟨5, 5⟩, 100⟩] := by
  decide

/-! ### Termination of the cycle walker (C10) -/

theorem countP_listModify_true_false (p : α → Bool) (f : α → α) :
    ∀ (l : List α) (n : Nat) (a : α), l.get? n = some a →
      p a = true → p (f a) = false →
      (listModify f n l).countP p + 1 = l.countP p := by
  intro l
  induction l with
  | nil => intro n a h; simp at h
  | cons x xs ih =>
      intro n a h hp hpf
      cases n with
      | zero =>
          simp only [List.get?] at h
          cases h
          simp [listModify, List.countP_cons, hp, hpf]
      | succ n =>
          simp only [List.get?] at h
          have := ih n a h hp hpf
          simp only [listModify, List.countP_cons]
          omega

theorem countUnused_markUsed (edges : List HalfEdge) (c : Int) (e : HalfEdge)
    (hE : edgeAt? edges c = some e) (hu : e.used = false) :
    countUnused (markUsed edges c) + 1 = countUnused edges := by
  unfold edgeAt? at hE
  split at hE
  · cases hE
  · unfold countUnused markUsed
    exact countP_listModify_true_false _ _ edges c.toNat e hE
      (by simp [hu]) (by simp)

/-- C10: the inner walk of the cycle walker always terminates, because
each pass of the loop either breaks out or marks a previously unmarked
half-edge as used, so the iteration count is bounded by the number of
unused half-edges: with any recursion budget exceeding that number (in
particular the `edgeCount + 1` budget `walkCycles` passes, since unused
edges never outnumber the edge array) the budget is never exhausted. -/
theorem claim_C10 (nodes : List Node) (startId : Int) (fuel : Nat) :
    ∀ (edges : List HalfEdge) (currentId : Int) (poly : List Vec2),
      countUnused edges < fuel →
      (walkLoop nodes startId fuel edges currentId poly).reason ≠ WalkEnd.fuelOut := by
  induction fuel with
  | zero => intro edges c poly h; exact absurd h (Nat.not_lt_zero _)
  | succ n ih =>
      intro edges c poly h
      simp only [walkLoop]
      split
      · simp
      · next e heq =>
          split
          · simp
          · next hu =>
              split
              · simp
              · split
                · simp
                · split
                  · simp
                  · apply ih
                    have hcnt := countUnused_markUsed edges c e heq
                      (by simpa using hu)
                    omega

unseal Rat.add Rat.mul Rat.inv Rat.sub in
/-- C10 (witness): on the built square graph, eight unused edges sit
below the budget of nine, and the walk from edge 0 does not exhaust
it. -/
theorem claim_C10_witness :
    countUnused preGraphSquare.m_edges < 9 ∧
    (walkLoop preGraphSquare.m_nodes 0 9 preGraphSquare.m_edges 0 []).reason ≠
      WalkEnd.fuelOut :=
  ⟨by decide,
   claim_C10 preGraphSquare.m_nodes 0 9 preGraphSquare.m_edges 0 [] (by decide)⟩

/-! ### The next-relation rule (C3) -/

theorem edgeAt_map (f : HalfEdge → HalfEdge) (edges : List HalfEdge)
    (i : Nat) (h : i < edges.length) :
    edgeAt (edges.map f) (i : Int) = f (edgeAt edges (i : Int)) := by
  have hnn : ¬ ((i : Int) < 0) := by omega
  have htn : ((i : Int)).toNat = i := rfl
  unfold edgeAt edgeAt?
  rw [if_neg hnn, if_neg hnn, htn, List.get?_map, List.get?_eq_get h]
  rfl

theorem edgeAt_buildNextRelations (g : RoomGraph) (i : Nat)
    (h : i < g.m_edges.length) :
    edgeAt (buildNextRelations g).m_edges (i : Int) =
      setNextFor g.m_nodes (edgeAt g.m_edges (i : Int)) :=
  edgeAt_map _ _ i h

/-- C3: for a half-edge `e` from `A` to `B` (with `B` a valid node, as
in every built graph) and `e.next` unset beforehand, `buildNextRelations`
locates `twin(e)` in the angularly-sorted outgoing list of `B`; if it
occurs at position `p` in a list of length `n`, `e.next` becomes the
edge at position `(p - 1) mod n` of that circular list, and if the list
is empty or `twin(e)` is not found, `e.next` stays unset (`-1`). -/
theorem claim_C3 (g : RoomGraph) (i : Nat) (h : i < g.m_edges.length)
    (hB : 0 ≤ (edgeAt g.m_edges (i : Int)).toId ∧
          (edgeAt g.m_edges (i : Int)).toId < (g.m_nodes.length : Int))
    (hunset : (edgeAt g.m_edges (i : Int)).next = -1) :
    (∀ p : Nat,
      findPos (edgeAt g.m_edges (i : Int)).twin
          (nodeAt g.m_nodes (edgeAt g.m_edges (i : Int)).toId).outgoingEdges
        = some p →
      ∃ hp : (((p : Int) - 1 +
          ((nodeAt g.m_nodes (edgeAt g.m_edges (i : Int)).toId).outgoingEdges.length : Int)) %
          ((nodeAt g.m_nodes (edgeAt g.m_edges (i : Int)).toId).outgoingEdges.length : Int)).toNat
          < (nodeAt g.m_nodes (edgeAt g.m_edges (i : Int)).toId).outgoingEdges.length,
        (edgeAt (buildNextRelations g).m_edges (i : Int)).next =
          (nodeAt g.m_nodes (edgeAt g.m_edges (i : Int)).toId).outgoingEdges.get
            ⟨(((p : Int) - 1 +
                ((nodeAt g.m_nodes (edgeAt g.m_edges (i : Int)).toId).outgoingEdges.length : Int)) %
                ((nodeAt g.m_nodes (edgeAt g.m_edges (i : Int)).toId).outgoingEdges.length : Int)).toNat,
              hp⟩) ∧
    (findPos (edgeAt g.m_edges (i : Int)).twin
        (nodeAt g.m_nodes (edgeAt g.m_edges (i : Int)).toId).outgoingEdges = none →
      (edgeAt (buildNextRelations g).m_edges (i : Int)).next = -1) := by
  have hmap := edgeAt_buildNextRelations g i h
  have hguard : ¬ ((edgeAt g.m_edges (i : Int)).toId < 0 ∨
      (g.m_nodes.length : Int) ≤ (edgeAt g.m_edges (i : Int)).toId) := by
    omega
  constructor
  · intro p hp
    obtain ⟨hplt, hpget⟩ := findPos_spec _ _ p hp
    have hne : (nodeAt g.m_nodes
        (edgeAt g.m_edges (i : Int)).toId).outgoingEdges.isEmpty = false := by
      cases hout : (nodeAt g.m_nodes
          (edgeAt g.m_edges (i : Int)).toId).outgoingEdges with
      | nil => rw [hout] at hplt; simp at hplt
      | cons a l => rfl
    have hlenpos : 0 < (nodeAt g.m_nodes
        (edgeAt g.m_edges (i : Int)).toId).outgoingEdges.length := by omega
    have hmod0 : (0 : Int) ≤ ((p : Int) - 1 +
        ((nodeAt g.m_nodes (edgeAt g.m_edges (i : Int)).toId).outgoingEdges.length : Int)) %
        ((nodeAt g.m_nodes (edgeAt g.m_edges (i : Int)).toId).outgoingEdges.length : Int) :=
      Int.emod_nonneg _ (by omega)
    have hmodlt : ((p : Int) - 1 +
        ((nodeAt g.m_nodes (edgeAt g.m_edges (i : Int)).toId).outgoingEdges.length : Int)) %
        ((nodeAt g.m_nodes (edgeAt g.m_edges (i : Int)).toId).outgoingEdges.length : Int) <
        ((nodeAt g.m_nodes (edgeAt g.m_edges (i : Int)).toId).outgoingEdges.length : Int) :=
      Int.emod_lt_of_pos _ (by omega)
    have hptn : (((p : Int) - 1 +
        ((nodeAt g.m_nodes (edgeAt g.m_edges (i : Int)).toId).outgoingEdges.length : Int)) %
        ((nodeAt g.m_nodes (edgeAt g.m_edges (i : Int)).toId).outgoingEdges.length : Int)).toNat
        < (nodeAt g.m_nodes (edgeAt g.m_edges (i : Int)).toId).outgoingEdges.length := by
      omega
    refine ⟨hptn, ?_⟩
    rw [hmap]
    unfold setNextFor
    rw [if_neg hguard, hne]
    simp only [Bool.false_eq_true, if_false]
    rw [hp]
    dsimp only
    rw [List.get?_eq_get hptn]
    rfl
  · intro hnone
    rw [hmap]
    unfold setNextFor
    rw [if_neg hguard]
    split
    · exact hunset
    · split
      · exact hunset
      · next pos heq =>
          rw [hnone] at heq
          cases heq

unseal Rat.add Rat.mul Rat.inv Rat.sub in
/-- C3 (witness): edge 0 of the square graph before `buildNextRelations`
has a valid target node and unset `next`, and the rule applies to it. -/
theorem claim_C3_witness :
    (0 < (sortOutgoingByAngle (buildNodesAndEdges (clear initGraph)
        squareSegs)).m_edges.length ∧
     (0 ≤ (edgeAt (sortOutgoingByAngle (buildNodesAndEdges (clear initGraph)
        squareSegs)).m_edges (0 : Nat)).toId ∧
      (edgeAt (sortOutgoingByAngle (buildNodesAndEdges (clear initGraph)
        squareSegs)).m_edges (0 : Nat)).toId <
        ((sortOutgoingByAngle (buildNodesAndEdges (clear initGraph)
          squareSegs)).m_nodes.length : Int)) ∧
     (edgeAt (sortOutgoingByAngle (buildNodesAndEdges (clear initGraph)
        squareSegs)).m_edges (0 : Nat)).next = -1) ∧
    ((∀ p : Nat,
      findPos (edgeAt (sortOutgoingByAngle (buildNodesAndEdges (clear initGraph)
          squareSegs)).m_edges ((0 : Nat) : Int)).twin
          (nodeAt (sortOutgoingByAngle (buildNodesAndEdges (clear initGraph)
            squareSegs)).m_nodes
            (edgeAt (sortOutgoingByAngle (buildNodesAndEdges (clear initGraph)
              squareSegs)).m_edges ((0 : Nat) : Int)).toId).outgoingEdges
        = some p →
      ∃ hp : (((p : Int) - 1 +
          ((nodeAt (sortOutgoingByAngle (buildNodesAndEdges (clear initGraph)
            squareSegs)).m_nodes
            (edgeAt (sortOutgoingByAngle (buildNodesAndEdges (clear initGraph)
              squareSegs)).m_edges ((0 : Nat) : Int)).toId).outgoingEdges.length : Int)) %
          ((nodeAt (sortOutgoingByAngle (buildNodesAndEdges (clear initGraph)
            squareSegs)).m_nodes
            (edgeAt (sortOutgoingByAngle (buildNodesAndEdges (clear initGraph)
              squareSegs)).m_edges ((0 : Nat) : Int)).toId).outgoingEdges.length : Int)).toNat
          < (nodeAt (sortOutgoingByAngle (buildNodesAndEdges (clear initGraph)
            squareSegs)).m_nodes
            (edgeAt (sortOutgoingByAngle (buildNodesAndEdges (clear initGraph)
              squareSegs)).m_edges ((0 : Nat) : Int)).toId).outgoingEdges.length,
        (edgeAt (buildNextRelations (sortOutgoingByAngle (buildNodesAndEdges
            (clear initGraph) squareSegs))).m_edges ((0 : Nat) : Int)).next =
          (nodeAt (sortOutgoingByAngle (buildNodesAndEdges (clear initGraph)
            squareSegs)).m_nodes
            (edgeAt (sortOutgoingByAngle (buildNodesAndEdges (clear initGraph)
              squareSegs)).m_edges ((0 : Nat) : Int)).toId).outgoingEdges.get
            ⟨(((p : Int) - 1 +
                ((nodeAt (sortOutgoingByAngle (buildNodesAndEdges (clear initGraph)
                  squareSegs)).m_nodes
                  (edgeAt (sortOutgoingByAngle (buildNodesAndEdges (clear initGraph)
                    squareSegs)).m_edges ((0 : Nat) : Int)).toId).outgoingEdges.length : Int)) %
                ((nodeAt (sortOutgoingByAngle (buildNodesAndEdges (clear initGraph)
                  squareSegs)).m_nodes
                  (edgeAt (sortOutgoingByAngle (buildNodesAndEdges (clear initGraph)
                    squareSegs)).m_edges ((0 : Nat) : Int)).toId).outgoingEdges.length : Int)).toNat,
              hp⟩) ∧
    (findPos (edgeAt (sortOutgoingByAngle (buildNodesAndEdges (clear initGraph)
        squareSegs)).m_edges ((0 : Nat) : Int)).twin
        (nodeAt (sortOutgoingByAngle (buildNodesAndEdges (clear initGraph)
          squareSegs)).m_nodes
          (edgeAt (sortOutgoingByAngle (buildNodesAndEdges (clear initGraph)
            squareSegs)).m_edges ((0 : Nat) : Int)).toId).outgoingEdges = none →
      (edgeAt (buildNextRelations (sortOutgoingByAngle (buildNodesAndEdges
          (clear initGraph) squareSegs))).m_edges ((0 : Nat) : Int)).next = -1)) :=
  ⟨⟨by decide, by decide, by decide⟩,
   claim_C3 (sortOutgoingByAngle (buildNodesAndEdges (clear initGraph) squareSegs))
     0 (by decide) (by decide) (by decide)⟩

/-! ### Only filtered counter-clockwise rooms are returned (C4) -/

theorem findOrCreateNode_rooms (g : RoomGraph) (p : Vec2) :
    (findOrCreateNode g p).2.m_rooms = g.m_rooms := by
  unfold findOrCreateNode
  dsimp only
  split <;> rfl

theorem addSegment_rooms (g : RoomGraph) (s : Segment) :
    (addSegment g s).m_rooms = g.m_rooms := by
  have h1 := findOrCreateNode_rooms g s.a
  have h2 := findOrCreateNode_rooms (findOrCreateNode g s.a).2 s.b
  unfold addSegment
  dsimp only
  split
  · rw [h2, h1]
  · show (findOrCreateNode (findOrCreateNode g s.a).2 s.b).2.m_rooms = _
    rw [h2, h1]

theorem buildNodesAndEdges_rooms :
    ∀ (segs : List Segment) (g : RoomGraph),
      (buildNodesAndEdges g segs).m_rooms = g.m_rooms := by
  intro segs
  induction segs with
  | nil => intro g; rfl
  | cons s ss ih =>
      intro g
      show (buildNodesAndEdges (addSegment g s) ss).m_rooms = _
      rw [ih, addSegment_rooms]

theorem walkCyclesStep_rooms (nodes : List Node) (st : CycleState) (i : Nat) :
    ∀ r ∈ (walkCyclesStep nodes st i).rooms, r ∈ st.rooms ∨ GoodRoom r := by
  intro r hr
  unfold walkCyclesStep at hr
  split at hr
  · exact Or.inl hr
  · split at hr
    · exact Or.inl hr
    · dsimp only at hr
      split at hr
      · exact Or.inl hr
      · next h3 =>
          split at hr
          · exact Or.inl hr
          · next htol =>
              split at hr
              · exact Or.inl hr
              · next hpos =>
                  rcases List.mem_append.1 hr with hold | hnew
                  · exact Or.inl hold
                  · have hr2 := List.mem_singleton.1 hnew
                    subst hr2
                    push_neg at h3 htol hpos
                    rw [abs_of_pos hpos] at htol
                    refine Or.inr ?_
                    unfold GoodRoom
                    exact ⟨h3, htol, hpos, abs_of_pos hpos⟩

theorem walkCycles_foldl_rooms (nodes : List Node) :
    ∀ (idxs : List Nat) (st : CycleState),
      ∀ r ∈ (idxs.foldl (walkCyclesStep nodes) st).rooms,
        r ∈ st.rooms ∨ GoodRoom r := by
  intro idxs
  induction idxs with
  | nil => intro st r hr; exact Or.inl hr
  | cons i is ih =>
      intro st r hr
      rcases ih (walkCyclesStep nodes st i) r hr with hmem | hgood
      · exact walkCyclesStep_rooms nodes st i r hmem
      · exact Or.inr hgood

/-- C4 (amended): every room returned after `build` has a polygon with
at least 3 vertices whose signed (shoelace) area is at least the `1e-6`
tolerance — hence strictly positive, i.e. counter-clockwise — and the
stored `area` equals that signed area; no clockwise or below-tolerance
loop is ever returned.  (The original claim's strict bound `area >
1e-6` fails: the discard test of the source is `|area| < 1e-6`, which
keeps a loop whose area equals the tolerance exactly.) -/
theorem claim_C4 (g : RoomGraph) (segs : List Segment) (r : Room)
    (hr : r ∈ (build g segs).m_rooms) :
    3 ≤ r.polygon.length ∧
    (1 : ℚ)/1000000 ≤ computeSignedArea r.polygon ∧
    0 < computeSignedArea r.polygon ∧
    r.area = computeSignedArea r.polygon := by
  suffices hgood : GoodRoom r from hgood
  unfold build buildRun at hr
  dsimp only at hr
  split at hr
  · exact absurd hr (by simp [clear])
  · have hrooms : (buildNextRelations (sortOutgoingByAngle
        (buildNodesAndEdges (clear g) segs))).m_rooms = [] := by
      show (buildNodesAndEdges (clear g) segs).m_rooms = []
      rw [buildNodesAndEdges_rooms]
      rfl
    have hwc : (walkCycles (buildNextRelations (sortOutgoingByAngle
        (buildNodesAndEdges (clear g) segs)))).1.m_rooms =
        ((List.range (buildNextRelations (sortOutgoingByAngle
          (buildNodesAndEdges (clear g) segs))).m_edges.length).foldl
          (walkCyclesStep (buildNextRelations (sortOutgoingByAngle
            (buildNodesAndEdges (clear g) segs))).m_nodes)
          ⟨(buildNextRelations (sortOutgoingByAngle
            (buildNodesAndEdges (clear g) segs))).m_edges,
           (buildNextRelations (sortOutgoingByAngle
            (buildNodesAndEdges (clear g) segs))).m_rooms, []⟩).rooms := rfl
    rw [hwc] at hr
    rcases walkCycles_foldl_rooms _ _ _ r hr with hmem | hgood
    · rw [hrooms] at hmem
      cases hmem
    · exact hgood

unseal Rat.add Rat.mul Rat.inv Rat.sub in
/-- C4 (counterexample): a sliver triangle with vertices `(0,0)`,
`(1,0)`, `(1/2, 2e-6)` — exact in the source's double arithmetic —
yields a room whose shoelace area is exactly `1e-6`, so the claim's
strict bound `area > 1e-6` is violated by the room list of this
build. -/
theorem claim_C4_counterexample :
    ¬ (∀ r ∈ (build initGraph boundaryTri).m_rooms,
        3 ≤ r.polygon.length ∧
        (1 : ℚ)/1000000 < computeSignedArea r.polygon) := by
  decide

unseal Rat.add Rat.mul Rat.inv Rat.sub in
/-- C4 (witness): the square's single room satisfies the amended
bounds. -/
theorem claim_C4_witness :
    squareRoom ∈ (build initGraph squareSegs).m_rooms ∧
    (3 ≤ squareRoom.polygon.length ∧
     (1 : ℚ)/1000000 ≤ computeSignedArea squareRoom.polygon ∧
     0 < computeSignedArea squareRoom.polygon ∧
     squareRoom.area = computeSignedArea squareRoom.polygon) :=
  ⟨by decide, claim_C4 initGraph squareSegs squareRoom (by decide)⟩

/-! ### Lookup and update lemmas -/

theorem edgeAt?_nat (edges : List HalfEdge) (i : Nat) (h : i < edges.length) :
    edgeAt? edges (i : Int) = some (edges.get ⟨i, h⟩) := by
  unfold edgeAt?
  rw [if_neg (by omega)]
  exact List.get?_eq_get h

theorem edgeAt_nat (edges : List HalfEdge) (i : Nat) (h : i < edges.length) :
    edgeAt edges (i : Int) = edges.get ⟨i, h⟩ := by
  unfold edgeAt
  rw [edgeAt?_nat edges i h]
  rfl

theorem nodeAt_nat (nodes : List Node) (n : Nat) (h : n < nodes.length) :
    nodeAt nodes (n : Int) = nodes.get ⟨n, h⟩ := by
  unfold nodeAt nodeAt?
  rw [if_neg (by omega)]
  show (nodes.get? n).getD _ = _
  rw [List.get?_eq_get h]
  rfl

theorem edgeAt_append_left (edges more : List HalfEdge) (i : Nat)
    (h : i < edges.length) :
    edgeAt (edges ++ more) (i : Int) = edgeAt edges (i : Int) := by
  unfold edgeAt edgeAt?
  rw [if_neg (by omega), if_neg (by omega)]
  show ((edges ++ more).get? i).getD _ = (edges.get? i).getD _
  rw [List.get?_append h]

theorem nodeAt_append_left (nodes more : List Node) (n : Nat)
    (h : n < nodes.length) :
    nodeAt (nodes ++ more) (n : Int) = nodeAt nodes (n : Int) := by
  unfold nodeAt nodeAt?
  rw [if_neg (by omega), if_neg (by omega)]
  show ((nodes ++ more).get? n).getD _ = (nodes.get? n).getD _
  rw [List.get?_append h]

theorem edgeAt_append2_fst (edges : List HalfEdge) (e1 e2 : HalfEdge) :
    edgeAt (edges ++ [e1, e2]) ((edges.length : Nat) : Int) = e1 := by
  unfold edgeAt edgeAt?
  rw [if_neg (by omega)]
  show ((edges ++ [e1, e2]).get? edges.length).getD _ = e1
  rw [List.get?_append_right (le_refl _), Nat.sub_self]
  rfl

theorem edgeAt_append2_snd (edges : List HalfEdge) (e1 e2 : HalfEdge) :
    edgeAt (edges ++ [e1, e2]) ((edges.length + 1 : Nat) : Int) = e2 := by
  unfold edgeAt edgeAt?
  rw [if_neg (by omega)]
  show ((edges ++ [e1, e2]).get? (edges.length + 1)).getD _ = e2
  rw [List.get?_append_right (by omega)]
  have h1 : edges.length + 1 - edges.length = 1 := by omega
  rw [h1]
  rfl

theorem markUsed_length (edges : List HalfEdge) (c : Int) :
    (markUsed edges c).length = edges.length :=
  listModify_length _ _ _

theorem edgeAt_markUsed (edges : List HalfEdge) (c : Int) (i : Nat) :
    edgeAt (markUsed edges c) (i : Int) = edgeAt edges (i : Int) ∨
    edgeAt (markUsed edges c) (i : Int) =
      { edgeAt edges (i : Int) with used := true } := by
  unfold markUsed edgeAt edgeAt?
  rw [if_neg (by omega), if_neg (by omega)]
  show ((listModify _ c.toNat edges).get? i).getD _ = (edges.get? i).getD _ ∨
    ((listModify _ c.toNat edges).get? i).getD _ =
      { (edges.get? i).getD _ with used := true }
  rw [listModify_get?]
  split
  · cases hg : edges.get? i with
    | none => left; rfl
    | some e => right; rfl
  · left; rfl

theorem edgeAt_markUsed_self (edges : List HalfEdge) (c : Nat)
    (h : c < edges.length) :
    edgeAt (markUsed edges (c : Int)) ((c : Nat) : Int) =
      { edgeAt edges ((c : Nat) : Int) with used := true } := by
  unfold markUsed edgeAt edgeAt?
  rw [if_neg (by omega), if_neg (by omega)]
  show ((listModify _ ((c : Int)).toNat edges).get? c).getD _ = _
  have htn : ((c : Int)).toNat = c := rfl
  rw [htn, listModify_get?, if_pos rfl, List.get?_eq_get h]
  rfl

theorem edgeAt_markUsed_ne (edges : List HalfEdge) (c : Int) (i : Nat)
    (h : i ≠ c.toNat) :
    edgeAt (markUsed edges c) (i : Int) = edgeAt edges (i : Int) := by
  unfold markUsed edgeAt edgeAt?
  rw [if_neg (by omega), if_neg (by omega)]
  show ((listModify _ c.toNat edges).get? i).getD _ = _
  rw [listModify_get?, if_neg h]
  rfl

theorem nodeAt_map (f : Node → Node) (nodes : List Node) (n : Nat)
    (h : n < nodes.length) :
    nodeAt (nodes.map f) (n : Int) = f (nodeAt nodes (n : Int)) := by
  unfold nodeAt nodeAt?
  rw [if_neg (by omega), if_neg (by omega)]
  show ((nodes.map f).get? n).getD _ = f ((nodes.get? n).getD _)
  rw [List.get?_map, List.get?_eq_get h]
  rfl

theorem pushOutgoing_length (nodes : List Node) (n eid : Int) :
    (pushOutgoing nodes n eid).length = nodes.length :=
  listModify_length _ _ _

theorem nodeAt_pushOutgoing_self (nodes : List Node) (n : Nat) (eid : Int)
    (h : n < nodes.length) :
    nodeAt (pushOutgoing nodes ((n : Nat) : Int) eid) ((n : Nat) : Int) =
      { nodeAt nodes ((n : Nat) : Int) with
        outgoingEdges := (nodeAt nodes ((n : Nat) : Int)).outgoingEdges ++ [eid] } := by
  unfold pushOutgoing nodeAt nodeAt?
  rw [if_neg (by omega), if_neg (by omega)]
  show ((listModify _ (((n : Nat) : Int)).toNat nodes).get? n).getD _ = _
  have htn : (((n : Nat) : Int)).toNat = n := rfl
  rw [htn, listModify_get?, if_pos rfl, List.get?_eq_get h]
  rfl

theorem nodeAt_pushOutgoing_ne (nodes : List Node) (c : Int) (eid : Int)
    (m : Nat) (h : m ≠ c.toNat) :
    nodeAt (pushOutgoing nodes c eid) (m : Int) = nodeAt nodes (m : Int) := by
  unfold pushOutgoing nodeAt nodeAt?
  rw [if_neg (by omega), if_neg (by omega)]
  show ((listModify _ c.toNat nodes).get? m).getD _ = _
  rw [listModify_get?, if_neg h]
  rfl

/-! ### Arithmetic of `twinIdx` and `prevCirc` -/

theorem twinIdx_lt (L i : Nat) (hL : L % 2 = 0) (h : i < L) : twinIdx i < L := by
  unfold twinIdx
  split <;> omega

theorem twinIdx_twinIdx (i : Nat) : twinIdx (twinIdx i) = i := by
  rcases Nat.mod_two_eq_zero_or_one i with h | h
  · have h1 : twinIdx i = i + 1 := by unfold twinIdx; rw [if_pos h]
    have h2 : twinIdx (i + 1) = i := by
      unfold twinIdx
      rw [if_neg (by omega)]
      omega
    rw [h1, h2]
  · have h1 : twinIdx i = i - 1 := by
      unfold twinIdx
      rw [if_neg (by omega)]
    have h2 : twinIdx (i - 1) = i := by
      unfold twinIdx
      rw [if_pos (by omega)]
      omega
    rw [h1, h2]

theorem twinIdx_inj (i j : Nat) (h : twinIdx i = twinIdx j) : i = j := by
  rw [← twinIdx_twinIdx i, h, twinIdx_twinIdx]

theorem twinIdx_ne_self (i : Nat) : twinIdx i ≠ i := by
  unfold twinIdx
  split <;> omega

theorem prevCirc_eq (p n : Nat) (hn : 0 < n) (hp : p < n) :
    prevCirc p n = if p = 0 then n - 1 else p - 1 := by
  unfold prevCirc
  rcases Nat.eq_zero_or_pos p with rfl | hp1
  · rw [if_pos rfl]
    have h1 : ((0 : Nat) : Int) - 1 + (n : Int) = (n : Int) - 1 := by omega
    rw [h1, Int.emod_eq_of_lt (by omega) (by omega)]
    omega
  · rw [if_neg (by omega)]
    have h1 : ((p : Nat) : Int) - 1 + (n : Int) =
        ((p - 1 : Nat) : Int) + (n : Int) * 1 := by omega
    rw [h1, Int.add_mul_emod_self_left,
      Int.emod_eq_of_lt (by omega) (by omega)]
    omega

theorem prevCirc_lt (p n : Nat) (hn : 0 < n) (hp : p < n) : prevCirc p n < n := by
  rw [prevCirc_eq p n hn hp]
  split <;> omega

theorem prevCirc_inj (p q n : Nat) (hp : p < n) (hq : q < n)
    (h : prevCirc p n = prevCirc q n) : p = q := by
  have hn : 0 < n := by omega
  rw [prevCirc_eq p n hn hp, prevCirc_eq q n hn hq] at h
  split at h <;> split at h <;> omega

/-! ### Registry lookup lemmas -/

theorem nodup_map_mem_inj {α β : Type _} (f : α → β) :
    ∀ (l : List α), (l.map f).Nodup → ∀ a ∈ l, ∀ b ∈ l, f a = f b → a = b := by
  intro l
  induction l with
  | nil => intro _ a ha; cases ha
  | cons x xs ih =>
      intro hnd a ha b hb hfab
      rw [List.map_cons, List.nodup_cons] at hnd
      rcases List.mem_cons.1 ha with rfl | ha2 <;>
        rcases List.mem_cons.1 hb with rfl | hb2
      · rfl
      · exact absurd (hfab ▸ List.mem_map_of_mem f hb2) hnd.1
      · exact absurd (hfab ▸ List.mem_map_of_mem f ha2) hnd.1
      · exact ih hnd.2 a ha2 b hb2 hfab

theorem indexFind_some_mem (idx : List (GridKey × Int)) (k : GridKey) (v : Int)
    (h : indexFind idx k = some v) : (k, v) ∈ idx := by
  unfold indexFind at h
  cases hf : idx.find? (fun pr => pr.1 = k) with
  | none => rw [hf] at h; cases h
  | some pr =>
      rw [hf] at h
      have hmem := List.mem_of_find?_eq_some hf
      have hpred : pr.1 = k := by simpa using List.find?_some hf
      have hv : pr.2 = v := by simpa using h
      have : pr = (k, v) := by
        cases pr
        simp only at hpred hv
        rw [hpred, hv]
      rw [← this]
      exact hmem

theorem indexFind_append (idx1 idx2 : List (GridKey × Int)) (k : GridKey) :
    indexFind (idx1 ++ idx2) k =
      match indexFind idx1 k with
      | some v => some v
      | none => indexFind idx2 k := by
  unfold indexFind
  rw [List.find?_append]
  cases idx1.find? (fun pr => pr.1 = k) <;> rfl

theorem indexFind_singleton (k k2 : GridKey) (v : Int) :
    indexFind [(k2, v)] k = if k2 = k then some v else none := by
  unfold indexFind
  by_cases h : k2 = k
  · rw [if_pos h]
    have : List.find? (fun pr => pr.1 = k) [(k2, v)] = some (k2, v) := by
      simp [List.find?, h]
    rw [this]
    rfl
  · rw [if_neg h]
    have : List.find? (fun pr => pr.1 = k) [(k2, v)] = none := by
      simp [List.find?, h]
    rw [this]
    rfl

theorem indexFind_value_inj (idx : List (GridKey × Int))
    (hnd : (idx.map Prod.snd).Nodup) (k1 k2 : GridKey) (v1 v2 : Int)
    (h1 : indexFind idx k1 = some v1) (h2 : indexFind idx k2 = some v2)
    (hk : k1 ≠ k2) : v1 ≠ v2 := by
  intro hv
  have hm1 := indexFind_some_mem idx k1 v1 h1
  have hm2 := indexFind_some_mem idx k2 v2 h2
  have := nodup_map_mem_inj Prod.snd idx hnd (k1, v1) hm1 (k2, v2) hm2
    (by simpa using hv)
  exact hk (by simpa using congrArg Prod.fst this)

/-! ### Resolution behaviour of the node registry -/

theorem findOrCreateNode_cases (g : RoomGraph) (p : Vec2) :
    (∃ id, indexFind g.m_nodeIndex (snapKey g.m_snapSize p) = some id ∧
      findOrCreateNode g p = (id, g)) ∨
    (indexFind g.m_nodeIndex (snapKey g.m_snapSize p) = none ∧
      findOrCreateNode g p = ((g.m_nodes.length : Int),
        { g with
          m_nodes := g.m_nodes ++ [⟨(g.m_nodes.length : Int), p, []⟩],
          m_nodeIndex := g.m_nodeIndex ++
            [(snapKey g.m_snapSize p, (g.m_nodes.length : Int))] })) := by
  unfold findOrCreateNode
  dsimp only
  cases h : indexFind g.m_nodeIndex (snapKey g.m_snapSize p) with
  | some id => exact Or.inl ⟨id, rfl, rfl⟩
  | none => exact Or.inr ⟨rfl, rfl⟩

theorem outSum_append (nodes ext : List Node) :
    outSum (nodes ++ ext) = outSum nodes + outSum ext := by
  unfold outSum
  rw [List.map_append, List.sum_append]

theorem outSum_zero_of_empty :
    ∀ (ext : List Node), (∀ nd ∈ ext, nd.outgoingEdges = []) → outSum ext = 0
  | [], _ => rfl
  | nd :: rest, h => by
      have h1 : nd.outgoingEdges = [] := h nd (List.mem_cons_self _ _)
      have h2 := outSum_zero_of_empty rest
        (fun x hx => h x (List.mem_cons_of_mem _ hx))
      unfold outSum at h2 ⊢
      rw [List.map_cons, List.sum_cons, h1, h2]
      rfl

theorem outSum_listPush :
    ∀ (nodes : List Node) (k : Nat) (eid : Int), k < nodes.length →
      outSum (listModify
        (fun nd => { nd with outgoingEdges := nd.outgoingEdges ++ [eid] })
        k nodes) = outSum nodes + 1 := by
  intro nodes
  induction nodes with
  | nil => intro k eid h; simp at h
  | cons nd rest ih =>
      intro k eid h
      cases k with
      | zero =>
          show outSum ({ nd with
            outgoingEdges := nd.outgoingEdges ++ [eid] } :: rest) = _
          unfold outSum
          rw [List.map_cons, List.sum_cons, List.map_cons, List.sum_cons]
          simp only [List.length_append, List.length_singleton]
          omega
      | succ k =>
          show outSum (nd :: listModify _ k rest) = _
          have hk : k < rest.length := by
            simp only [List.length_cons] at h
            omega
          have hih := ih k eid hk
          unfold outSum at hih ⊢
          rw [List.map_cons, List.sum_cons, List.map_cons, List.sum_cons, hih]
          omega

theorem outSum_pushOutgoing (nodes : List Node) (n : Int) (eid : Int)
    (h : n.toNat < nodes.length) :
    outSum (pushOutgoing nodes n eid) = outSum nodes + 1 :=
  outSum_listPush nodes n.toNat eid h

theorem idxWF_clear (g : RoomGraph) : IdxWF (clear g) := by
  constructor
  · intro pr hpr
    cases hpr
  · exact List.nodup_nil

theorem findOrCreateNode_ext (g : RoomGraph) (p : Vec2) (hidx : IdxWF g) :
    ∃ ext : List Node,
      (findOrCreateNode g p).2.m_nodes = g.m_nodes ++ ext ∧
      (∀ nd ∈ ext, nd.outgoingEdges = []) ∧
      IdxWF (findOrCreateNode g p).2 ∧
      (findOrCreateNode g p).2.m_edges = g.m_edges ∧
      (findOrCreateNode g p).2.m_snapSize = g.m_snapSize ∧
      (findOrCreateNode g p).2.m_rooms = g.m_rooms ∧
      0 ≤ (findOrCreateNode g p).1 ∧
      (findOrCreateNode g p).1 < ((findOrCreateNode g p).2.m_nodes.length : Int) ∧
      indexFind (findOrCreateNode g p).2.m_nodeIndex (snapKey g.m_snapSize p) =
        some (findOrCreateNode g p).1 := by
  rcases findOrCreateNode_cases g p with ⟨id, hfound, heq⟩ | ⟨hnone, heq⟩
  · have hb := hidx.vbound (snapKey g.m_snapSize p, id)
      (indexFind_some_mem _ _ _ hfound)
    rw [heq]
    refine ⟨[], ?_, ?_, hidx, rfl, rfl, rfl, ?_, ?_, ?_⟩
    · rw [List.append_nil]
    · intro nd hnd
      cases hnd
    · exact hb.1
    · exact hb.2
    · exact hfound
  · rw [heq]
    refine ⟨[⟨(g.m_nodes.length : Int), p, []⟩], rfl, ?_, ?_, rfl, rfl, rfl,
      ?_, ?_, ?_⟩
    · intro nd hnd
      rcases List.mem_singleton.1 hnd with rfl
      rfl
    · constructor
      · intro pr hpr
        rcases List.mem_append.1 hpr with hold | hnew
        · have hb := hidx.vbound pr hold
          simp only [List.length_append, List.length_singleton]
          exact ⟨hb.1, by have := hb.2; omega⟩
        · rcases List.mem_singleton.1 hnew with rfl
          simp only [List.length_append, List.length_singleton]
          exact ⟨by omega, by omega⟩
      · rw [List.map_append, List.nodup_append]
        refine ⟨hidx.vnodup, List.nodup_singleton _, ?_⟩
        intro v hv hv2
        have hv3 : v = (g.m_nodes.length : Int) := by simpa using hv2
        obtain ⟨pr, hpr, hpv⟩ := List.mem_map.1 hv
        have hb := (hidx.vbound pr hpr).2
        rw [hpv, hv3] at hb
        omega
    · exact Int.natCast_nonneg _
    · simp only [List.length_append, List.length_singleton]
      omega
    · rw [indexFind_append, hnone, indexFind_singleton, if_pos rfl]

theorem resolve_pair_eq (g : RoomGraph) (pa pb : Vec2) (hidx : IdxWF g) :
    ((findOrCreateNode (findOrCreateNode g pa).2 pb).1 =
        (findOrCreateNode g pa).1) ↔
      snapKey g.m_snapSize pa = snapKey g.m_snapSize pb := by
  obtain ⟨ext1, hn1, he1, hidx1, hedges1, hsnap1, _, ha0, halt, hfind1⟩ :=
    findOrCreateNode_ext g pa hidx
  constructor
  · intro hab
    by_contra hk
    rcases findOrCreateNode_cases (findOrCreateNode g pa).2 pb with
      ⟨id2, hfound2, heq2⟩ | ⟨hnone2, heq2⟩
    · rw [hsnap1] at hfound2
      have hne : id2 ≠ (findOrCreateNode g pa).1 :=
        indexFind_value_inj _ hidx1.vnodup _ _ _ _ hfound2 hfind1
          (fun hkk => hk (hkk ▸ rfl))
      rw [heq2] at hab
      exact hne hab
    · rw [heq2] at hab
      simp only at hab
      omega
  · intro hk
    rcases findOrCreateNode_cases (findOrCreateNode g pa).2 pb with
      ⟨id2, hfound2, heq2⟩ | ⟨hnone2, heq2⟩
    · rw [hsnap1, ← hk, hfind1] at hfound2
      rw [heq2]
      simpa using hfound2.symm
    · rw [hsnap1, ← hk, hfind1] at hnone2
      cases hnone2

/-! ### Per-segment half-edge and outgoing-entry accounting (C6) -/

theorem pushTwice_outSum (nodes : List Node) (x y ex ey : Int)
    (hx : x.toNat < nodes.length) (hy : y.toNat < nodes.length) :
    outSum (pushOutgoing (pushOutgoing nodes x ex) y ey) = outSum nodes + 2 := by
  rw [outSum_pushOutgoing _ _ _ (by rw [pushOutgoing_length]; exact hy),
    outSum_pushOutgoing _ _ _ hx]

theorem addSegment_count (g : RoomGraph) (s : Segment) (hidx : IdxWF g) :
    IdxWF (addSegment g s) ∧
    (addSegment g s).m_edges.length = g.m_edges.length +
      (if snapKey g.m_snapSize s.a = snapKey g.m_snapSize s.b then 0 else 2) ∧
    outSum (addSegment g s).m_nodes = outSum g.m_nodes +
      (if snapKey g.m_snapSize s.a = snapKey g.m_snapSize s.b then 0 else 2) ∧
    (addSegment g s).m_snapSize = g.m_snapSize := by
  obtain ⟨ext1, hn1, he1, hidx1, hedges1, hsnap1, hrooms1, ha0, halt, hfind1⟩ :=
    findOrCreateNode_ext g s.a hidx
  obtain ⟨ext2, hn2, he2, hidx2, hedges2, hsnap2, hrooms2, hb0, hblt, hfind2⟩ :=
    findOrCreateNode_ext (findOrCreateNode g s.a).2 s.b hidx1
  have hres := resolve_pair_eq g s.a s.b hidx
  have houtg2 : outSum (findOrCreateNode (findOrCreateNode g s.a).2 s.b).2.m_nodes
      = outSum g.m_nodes := by
    rw [hn2, hn1, outSum_append, outSum_append,
      outSum_zero_of_empty ext1 he1, outSum_zero_of_empty ext2 he2]
    omega
  have hedgeg2 : (findOrCreateNode (findOrCreateNode g s.a).2 s.b).2.m_edges
      = g.m_edges := hedges2.trans hedges1
  have hsnapg2 : (findOrCreateNode (findOrCreateNode g s.a).2 s.b).2.m_snapSize
      = g.m_snapSize := hsnap2.trans hsnap1
  have hlen21 : (findOrCreateNode g s.a).2.m_nodes.length ≤
      (findOrCreateNode (findOrCreateNode g s.a).2 s.b).2.m_nodes.length := by
    rw [hn2, List.length_append]
    omega
  unfold addSegment
  dsimp only
  by_cases hab : (findOrCreateNode g s.a).1 =
      (findOrCreateNode (findOrCreateNode g s.a).2 s.b).1
  · rw [if_pos hab]
    have hkeys : snapKey g.m_snapSize s.a = snapKey g.m_snapSize s.b :=
      hres.1 hab.symm
    rw [if_pos hkeys]
    refine ⟨hidx2, ?_, ?_, hsnapg2⟩
    · rw [hedgeg2]
      omega
    · rw [houtg2]
      omega
  · rw [if_neg hab]
    have hkeys : ¬ (snapKey g.m_snapSize s.a = snapKey g.m_snapSize s.b) :=
      fun hk => hab (hres.2 hk).symm
    rw [if_neg hkeys]
    have hxa : (findOrCreateNode g s.a).1.toNat <
        (findOrCreateNode (findOrCreateNode g s.a).2 s.b).2.m_nodes.length := by
      omega
    have hxb : (findOrCreateNode (findOrCreateNode g s.a).2 s.b).1.toNat <
        (findOrCreateNode (findOrCreateNode g s.a).2 s.b).2.m_nodes.length := by
      omega
    refine ⟨?_, ?_, ?_, hsnapg2⟩
    · constructor
      · intro pr hpr
        have hb := hidx2.vbound pr hpr
        rw [pushOutgoing_length, pushOutgoing_length]
        exact hb
      · exact hidx2.vnodup
    · simp only [List.length_append, List.length_cons, List.length_nil]
      rw [hedgeg2]
    · rw [pushTwice_outSum _ _ _ _ _ hxa hxb, houtg2]

theorem buildNodesAndEdges_count :
    ∀ (segs : List Segment) (g : RoomGraph), IdxWF g →
      IdxWF (buildNodesAndEdges g segs) ∧
      (buildNodesAndEdges g segs).m_edges.length =
        g.m_edges.length + 2 * acceptedCount g.m_snapSize segs ∧
      outSum (buildNodesAndEdges g segs).m_nodes =
        outSum g.m_nodes + 2 * acceptedCount g.m_snapSize segs ∧
      (buildNodesAndEdges g segs).m_snapSize = g.m_snapSize := by
  intro segs
  induction segs with
  | nil =>
      intro g h
      refine ⟨h, ?_, ?_, rfl⟩
      · show g.m_edges.length = g.m_edges.length + 2 * acceptedCount g.m_snapSize []
        unfold acceptedCount
        simp
      · show outSum g.m_nodes = outSum g.m_nodes + 2 * acceptedCount g.m_snapSize []
        unfold acceptedCount
        simp
  | cons s ss ih =>
      intro g h
      obtain ⟨h1, h2, h3, h4⟩ := addSegment_count g s h
      obtain ⟨k1, k2, k3, k4⟩ := ih (addSegment g s) h1
      rw [h4] at k2 k3
      have hshow : buildNodesAndEdges g (s :: ss) =
          buildNodesAndEdges (addSegment g s) ss := rfl
      have hacc : acceptedCount g.m_snapSize (s :: ss) =
          acceptedCount g.m_snapSize ss +
            (if snapKey g.m_snapSize s.a = snapKey g.m_snapSize s.b
              then 0 else 1) := by
        unfold acceptedCount
        rw [List.countP_cons]
        by_cases hk : snapKey g.m_snapSize s.a = snapKey g.m_snapSize s.b
        · simp [hk]
        · simp [hk]
      rw [hshow]
      refine ⟨k1, ?_, ?_, k4.trans h4⟩
      · rw [k2, h2, hacc]
        by_cases hk : snapKey g.m_snapSize s.a = snapKey g.m_snapSize s.b <;>
          simp [hk] <;> omega
      · rw [k3, h3, hacc]
        by_cases hk : snapKey g.m_snapSize s.a = snapKey g.m_snapSize s.b <;>
          simp [hk] <;> omega

/-! ### Length preservation through the later stages -/

theorem sortOutgoingByAngle_edges (g : RoomGraph) :
    (sortOutgoingByAngle g).m_edges = g.m_edges := rfl

theorem buildNextRelations_nodes (g : RoomGraph) :
    (buildNextRelations g).m_nodes = g.m_nodes := rfl

theorem buildNextRelations_edges_length (g : RoomGraph) :
    (buildNextRelations g).m_edges.length = g.m_edges.length := by
  show (g.m_edges.map _).length = _
  rw [List.length_map]

theorem outSum_sortOutgoingByAngle (g : RoomGraph) :
    outSum (sortOutgoingByAngle g).m_nodes = outSum g.m_nodes := by
  show outSum (g.m_nodes.map _) = _
  have hgen : ∀ (nodes : List Node),
      outSum (nodes.map (fun nd =>
        { nd with outgoingEdges := sortIdsByAngle g.m_edges nd.outgoingEdges }))
        = outSum nodes := by
    intro nodes
    induction nodes with
    | nil => rfl
    | cons nd rest ih =>
        unfold outSum at ih ⊢
        simp only [List.map_cons, List.sum_cons]
        rw [ih]
        have hlen := (sortIdsByAngle_perm g.m_edges nd.outgoingEdges).length_eq
        simp only [hlen]
  exact hgen g.m_nodes

theorem walkLoop_edges_length (nodes : List Node) (startId : Int) :
    ∀ (fuel : Nat) (edges : List HalfEdge) (c : Int) (poly : List Vec2),
      (walkLoop nodes startId fuel edges c poly).edges.length = edges.length := by
  intro fuel
  induction fuel with
  | zero => intro edges c poly; rfl
  | succ n ih =>
      intro edges c poly
      simp only [walkLoop]
      split
      · rfl
      · split
        · rfl
        · split
          · exact markUsed_length _ _
          · split
            · exact markUsed_length _ _
            · split
              · exact markUsed_length _ _
              · exact (ih _ _ _).trans (markUsed_length _ _)

theorem walkCyclesStep_edges_length (nodes : List Node) (st : CycleState)
    (i : Nat) :
    (walkCyclesStep nodes st i).edges.length = st.edges.length := by
  unfold walkCyclesStep
  split
  · rfl
  · split
    · rfl
    · dsimp only
      split
      · exact walkLoop_edges_length _ _ _ _ _ _
      · split
        · exact walkLoop_edges_length _ _ _ _ _ _
        · split
          · exact walkLoop_edges_length _ _ _ _ _ _
          · exact walkLoop_edges_length _ _ _ _ _ _

theorem walkCycles_foldl_edges_length (nodes : List Node) :
    ∀ (idxs : List Nat) (st : CycleState),
      (idxs.foldl (walkCyclesStep nodes) st).edges.length = st.edges.length := by
  intro idxs
  induction idxs with
  | nil => intro st; rfl
  | cons i is ih =>
      intro st
      exact (ih _).trans (walkCyclesStep_edges_length _ _ _)

theorem walkCycles_edges_length (g : RoomGraph) :
    (walkCycles g).1.m_edges.length = g.m_edges.length := by
  show ((List.range g.m_edges.length).foldl (walkCyclesStep g.m_nodes)
    ⟨g.m_edges, g.m_rooms, []⟩).edges.length = _
  exact walkCycles_foldl_edges_length _ _ _

theorem walkCycles_nodes (g : RoomGraph) :
    (walkCycles g).1.m_nodes = g.m_nodes := rfl

/-- C6: the number of half-edges created by a build equals exactly twice
the number of accepted segments, and so does the total number of
outgoing-list entries; a segment is accepted iff its endpoints snap to
distinct grid keys, which (third conjunct, for any well-formed registry)
is exactly "its two endpoints resolve to distinct node ids"; rejected
segments contribute no half-edges and no outgoing-list entries. -/
theorem claim_C6 (g : RoomGraph) (segs : List Segment) :
    (build g segs).m_edges.length = 2 * acceptedCount g.m_snapSize segs ∧
    outSum (build g segs).m_nodes = 2 * acceptedCount g.m_snapSize segs ∧
    (∀ (g' : RoomGraph) (pa pb : Vec2), IdxWF g' →
      (((findOrCreateNode (findOrCreateNode g' pa).2 pb).1 =
          (findOrCreateNode g' pa).1) ↔
        snapKey g'.m_snapSize pa = snapKey g'.m_snapSize pb)) := by
  obtain ⟨w1, w2, w3, w4⟩ :=
    buildNodesAndEdges_count segs (clear g) (idxWF_clear g)
  refine ⟨?_, ?_, fun g' pa pb h => resolve_pair_eq g' pa pb h⟩
  · unfold build buildRun
    dsimp only
    split
    · next hemp =>
        cases segs with
        | nil => rfl
        | cons s ss => cases hemp
    · rw [walkCycles_edges_length, buildNextRelations_edges_length,
        sortOutgoingByAngle_edges, w2]
      show 0 + 2 * acceptedCount g.m_snapSize segs = _
      omega
  · unfold build buildRun
    dsimp only
    split
    · next hemp =>
        cases segs with
        | nil => rfl
        | cons s ss => cases hemp
    · rw [walkCycles_nodes, buildNextRelations_nodes,
        outSum_sortOutgoingByAngle, w3]
      show 0 + 2 * acceptedCount g.m_snapSize segs = _
      omega

/-! ### Structural well-formedness through `buildNodesAndEdges` -/

theorem nodeAt_append_left_int (nodes more : List Node) (x : Int)
    (h0 : 0 ≤ x) (h : x.toNat < nodes.length) :
    nodeAt (nodes ++ more) x = nodeAt nodes x := by
  have hx : x = ((x.toNat : Nat) : Int) := by omega
  rw [hx]
  exact nodeAt_append_left nodes more x.toNat h

theorem edgeAt_append_left_int (edges more : List HalfEdge) (x : Int)
    (h0 : 0 ≤ x) (h : x.toNat < edges.length) :
    edgeAt (edges ++ more) x = edgeAt edges x := by
  have hx : x = ((x.toNat : Nat) : Int) := by omega
  rw [hx]
  exact edgeAt_append_left edges more x.toNat h

theorem nodeAt_pushOutgoing_self_int (nodes : List Node) (x : Int) (eid : Int)
    (h0 : 0 ≤ x) (h : x.toNat < nodes.length) :
    nodeAt (pushOutgoing nodes x eid) x =
      { nodeAt nodes x with
        outgoingEdges := (nodeAt nodes x).outgoingEdges ++ [eid] } := by
  have hx : x = ((x.toNat : Nat) : Int) := by omega
  rw [hx]
  exact nodeAt_pushOutgoing_self nodes x.toNat eid h

theorem nodeAt_pushOutgoing_ne_int (nodes : List Node) (c : Int) (eid : Int)
    (y : Int) (h0 : 0 ≤ y) (hne : y.toNat ≠ c.toNat) :
    nodeAt (pushOutgoing nodes c eid) y = nodeAt nodes y := by
  have hy : y = ((y.toNat : Nat) : Int) := by omega
  rw [hy]
  exact nodeAt_pushOutgoing_ne nodes c eid y.toNat hne

theorem nodeAt_ext_outgoing (nodes ext : List Node)
    (hext : ∀ nd ∈ ext, nd.outgoingEdges = []) (n : Nat)
    (h1 : nodes.length ≤ n) (h2 : n < (nodes ++ ext).length) :
    (nodeAt (nodes ++ ext) (n : Int)).outgoingEdges = [] := by
  rw [nodeAt_nat _ n h2]
  have h3 := List.get?_eq_get h2
  rw [List.get?_append_right h1] at h3
  exact hext _ (List.get?_mem h3)

theorem graphWF_extendNodes (g g' : RoomGraph) (ext : List Node)
    (hn : g'.m_nodes = g.m_nodes ++ ext)
    (he : g'.m_edges = g.m_edges)
    (hext : ∀ nd ∈ ext, nd.outgoingEdges = [])
    (hidx : IdxWF g')
    (hwf : GraphWF g) : GraphWF g' := by
  have hlen : g.m_nodes.length ≤ g'.m_nodes.length := by
    rw [hn, List.length_append]
    omega
  constructor
  · exact hidx
  · rw [he]; exact hwf.evenE
  · intro i hi
    rw [he] at hi ⊢
    exact hwf.idEq i hi
  · intro i hi
    rw [he] at hi ⊢
    exact hwf.twinEq i hi
  · intro i hi
    rw [he] at hi ⊢
    have h := hwf.fromValid i hi
    exact ⟨h.1, by have := h.2; omega⟩
  · intro i hi
    rw [he] at hi ⊢
    have h := hwf.toValid i hi
    exact ⟨h.1, by have := h.2; omega⟩
  · intro i hi
    rw [he] at hi ⊢
    exact hwf.fromNeTo i hi
  · intro i hi
    rw [he] at hi ⊢
    exact hwf.twinFrom i hi
  · intro n hn2 eid hmem
    rw [he]
    rw [hn] at hmem
    by_cases hcase : n < g.m_nodes.length
    · rw [nodeAt_append_left _ _ n hcase] at hmem
      exact hwf.outFrom n hcase eid hmem
    · have hemp : (nodeAt (g.m_nodes ++ ext) (n : Int)).outgoingEdges = [] := by
        apply nodeAt_ext_outgoing _ _ hext n (by omega)
        rw [hn] at hn2
        exact hn2
      rw [hemp] at hmem
      cases hmem
  · intro n hn2
    rw [hn]
    by_cases hcase : n < g.m_nodes.length
    · rw [nodeAt_append_left _ _ n hcase]
      exact hwf.outNodup n hcase
    · have hemp : (nodeAt (g.m_nodes ++ ext) (n : Int)).outgoingEdges = [] := by
        apply nodeAt_ext_outgoing _ _ hext n (by omega)
        rw [hn] at hn2
        exact hn2
      rw [hemp]
      exact List.nodup_nil
  · intro i hi
    rw [he] at hi ⊢
    rw [hn]
    have hfv := hwf.fromValid i hi
    rw [nodeAt_append_left_int _ _ _ hfv.1 (by have := hfv.2; omega)]
    exact hwf.outMem i hi

theorem graphWF_clear (g : RoomGraph) : GraphWF (clear g) := by
  have hedges : (clear g).m_edges = [] := rfl
  have hnodes : (clear g).m_nodes = [] := rfl
  constructor
  · exact idxWF_clear g
  · rw [hedges]; rfl
  · intro i hi; rw [hedges] at hi; simp at hi
  · intro i hi; rw [hedges] at hi; simp at hi
  · intro i hi; rw [hedges] at hi; simp at hi
  · intro i hi; rw [hedges] at hi; simp at hi
  · intro i hi; rw [hedges] at hi; simp at hi
  · intro i hi; rw [hedges] at hi; simp at hi
  · intro n hn; rw [hnodes] at hn; simp at hn
  · intro n hn; rw [hnodes] at hn; simp at hn
  · intro i hi; rw [hedges] at hi; simp at hi

theorem allUnused_clear (g : RoomGraph) : AllUnused (clear g).m_edges := by
  intro i hi
  have hedges : (clear g).m_edges = [] := rfl
  rw [hedges] at hi
  simp at hi

theorem graphWF_addPair (G : RoomGraph) (hwf : GraphWF G)
    (hu : AllUnused G.m_edges) (a b : Int) (qa qb : ℚ)
    (ha0 : 0 ≤ a) (halt : a < (G.m_nodes.length : Int))
    (hb0 : 0 ≤ b) (hblt : b < (G.m_nodes.length : Int))
    (hab : a ≠ b) :
    GraphWF { G with
      m_nodes := pushOutgoing (pushOutgoing G.m_nodes a
        (G.m_edges.length : Int)) b ((G.m_edges.length : Int) + 1),
      m_edges := G.m_edges ++
        [⟨(G.m_edges.length : Int), a, b, (G.m_edges.length : Int) + 1,
          -1, false, qa⟩,
         ⟨(G.m_edges.length : Int) + 1, b, a, (G.m_edges.length : Int),
          -1, false, qb⟩] } ∧
    AllUnused (G.m_edges ++
        [⟨(G.m_edges.length : Int), a, b, (G.m_edges.length : Int) + 1,
          -1, false, qa⟩,
         ⟨(G.m_edges.length : Int) + 1, b, a, (G.m_edges.length : Int),
          -1, false, qb⟩]) := by
  have habn : a.toNat ≠ b.toNat := by omega
  have hca : ((a.toNat : Nat) : Int) = a := by omega
  have hcb : ((b.toNat : Nat) : Int) = b := by omega
  set e1 : HalfEdge := ⟨(G.m_edges.length : Int), a, b,
    (G.m_edges.length : Int) + 1, -1, false, qa⟩ with he1def
  set e2 : HalfEdge := ⟨(G.m_edges.length : Int) + 1, b, a,
    (G.m_edges.length : Int), -1, false, qb⟩ with he2def
  set E2 : List HalfEdge := G.m_edges ++ [e1, e2] with hE2def
  set N2 : List Node := pushOutgoing (pushOutgoing G.m_nodes a
    (G.m_edges.length : Int)) b ((G.m_edges.length : Int) + 1) with hN2def
  have hElen : E2.length = G.m_edges.length + 2 := by
    rw [hE2def]
    simp
  have hNlen : N2.length = G.m_nodes.length := by
    rw [hN2def, pushOutgoing_length, pushOutgoing_length]
  have hEold : ∀ i : Nat, i < G.m_edges.length →
      edgeAt E2 (i : Int) = edgeAt G.m_edges (i : Int) := by
    intro i hi
    rw [hE2def]
    exact edgeAt_append_left _ _ i hi
  have hEoldInt : ∀ x : Int, 0 ≤ x → x < (G.m_edges.length : Int) →
      edgeAt E2 x = edgeAt G.m_edges x := by
    intro x h0 hlt
    rw [hE2def]
    exact edgeAt_append_left_int _ _ x h0 (by omega)
  have hE1 : edgeAt E2 ((G.m_edges.length : Nat) : Int) = e1 := by
    rw [hE2def]
    exact edgeAt_append2_fst _ _ _
  have hE2e : edgeAt E2 ((G.m_edges.length + 1 : Nat) : Int) = e2 := by
    rw [hE2def]
    exact edgeAt_append2_snd _ _ _
  have hNa : nodeAt N2 a = { nodeAt G.m_nodes a with
      outgoingEdges := (nodeAt G.m_nodes a).outgoingEdges ++
        [(G.m_edges.length : Int)] } := by
    rw [hN2def,
      nodeAt_pushOutgoing_ne_int _ _ _ a ha0 habn,
      nodeAt_pushOutgoing_self_int _ _ _ ha0 (by omega)]
  have hNb : nodeAt N2 b = { nodeAt G.m_nodes b with
      outgoingEdges := (nodeAt G.m_nodes b).outgoingEdges ++
        [(G.m_edges.length : Int) + 1] } := by
    rw [hN2def,
      nodeAt_pushOutgoing_self_int _ _ _ hb0 (by rw [pushOutgoing_length]; omega),
      nodeAt_pushOutgoing_ne_int _ _ _ b hb0 (by omega)]
  have hNother : ∀ m : Nat, m ≠ a.toNat → m ≠ b.toNat →
      nodeAt N2 (m : Int) = nodeAt G.m_nodes (m : Int) := by
    intro m hma hmb
    rw [hN2def, nodeAt_pushOutgoing_ne _ _ _ m hmb,
      nodeAt_pushOutgoing_ne _ _ _ m hma]
  have hmonoInt : ∀ (x y : Int), 0 ≤ y → y.toNat < G.m_nodes.length →
      x ∈ (nodeAt G.m_nodes y).outgoingEdges →
      x ∈ (nodeAt N2 y).outgoingEdges := by
    intro x y h0 hlt hx
    by_cases hya : y.toNat = a.toNat
    · have hy : y = a := by omega
      subst hy
      rw [hNa]
      exact List.mem_append_left _ hx
    · by_cases hyb : y.toNat = b.toNat
      · have hy : y = b := by omega
        subst hy
        rw [hNb]
        exact List.mem_append_left _ hx
      · have hy : y = ((y.toNat : Nat) : Int) := by omega
        rw [hy] at hx ⊢
        rw [hNother y.toNat hya hyb]
        exact hx
  refine ⟨?_, ?_⟩
  · constructor
    · constructor
      · intro pr hpr
        have hb2 := hwf.idx.vbound pr hpr
        show 0 ≤ pr.2 ∧ pr.2 < (N2.length : Int)
        rw [hNlen]
        exact hb2
      · exact hwf.idx.vnodup
    · show E2.length % 2 = 0
      rw [hElen]
      have := hwf.evenE
      omega
    · show ∀ i : Nat, i < E2.length → (edgeAt E2 (i : Int)).id = (i : Int)
      intro i hi
      rw [hElen] at hi
      rcases Nat.lt_or_ge i G.m_edges.length with hiL | hiGe
      · rw [hEold i hiL]
        exact hwf.idEq i hiL
      · have : i = G.m_edges.length ∨ i = G.m_edges.length + 1 := by omega
        rcases this with rfl | rfl
        · rw [hE1]
        · rw [hE2e, he2def]
          show (G.m_edges.length : Int) + 1 = _
          omega
    · show ∀ i : Nat, i < E2.length →
        (edgeAt E2 (i : Int)).twin = (twinIdx i : Int)
      intro i hi
      rw [hElen] at hi
      rcases Nat.lt_or_ge i G.m_edges.length with hiL | hiGe
      · rw [hEold i hiL]
        exact hwf.twinEq i hiL
      · have : i = G.m_edges.length ∨ i = G.m_edges.length + 1 := by omega
        rcases this with rfl | rfl
        · rw [hE1]
          have ht : twinIdx G.m_edges.length = G.m_edges.length + 1 := by
            unfold twinIdx
            rw [if_pos hwf.evenE]
          rw [ht, he1def]
          show (G.m_edges.length : Int) + 1 = _
          omega
        · rw [hE2e]
          have ht : twinIdx (G.m_edges.length + 1) = G.m_edges.length := by
            unfold twinIdx
            rw [if_neg (by have := hwf.evenE; omega)]
            omega
          rw [ht, he2def]
    · show ∀ i : Nat, i < E2.length →
        0 ≤ (edgeAt E2 (i : Int)).fromId ∧
        (edgeAt E2 (i : Int)).fromId < (N2.length : Int)
      intro i hi
      rw [hElen] at hi
      rw [hNlen]
      rcases Nat.lt_or_ge i G.m_edges.length with hiL | hiGe
      · rw [hEold i hiL]
        exact hwf.fromValid i hiL
      · have : i = G.m_edges.length ∨ i = G.m_edges.length + 1 := by omega
        rcases this with rfl | rfl
        · rw [hE1]
          exact ⟨ha0, halt⟩
        · rw [hE2e]
          exact ⟨hb0, hblt⟩
    · show ∀ i : Nat, i < E2.length →
        0 ≤ (edgeAt E2 (i : Int)).toId ∧
        (edgeAt E2 (i : Int)).toId < (N2.length : Int)
      intro i hi
      rw [hElen] at hi
      rw [hNlen]
      rcases Nat.lt_or_ge i G.m_edges.length with hiL | hiGe
      · rw [hEold i hiL]
        exact hwf.toValid i hiL
      · have : i = G.m_edges.length ∨ i = G.m_edges.length + 1 := by omega
        rcases this with rfl | rfl
        · rw [hE1]
          exact ⟨hb0, hblt⟩
        · rw [hE2e]
          exact ⟨ha0, halt⟩
    · show ∀ i : Nat, i < E2.length →
        (edgeAt E2 (i : Int)).fromId ≠ (edgeAt E2 (i : Int)).toId
      intro i hi
      rw [hElen] at hi
      rcases Nat.lt_or_ge i G.m_edges.length with hiL | hiGe
      · rw [hEold i hiL]
        exact hwf.fromNeTo i hiL
      · have : i = G.m_edges.length ∨ i = G.m_edges.length + 1 := by omega
        rcases this with rfl | rfl
        · rw [hE1]
          exact hab
        · rw [hE2e]
          exact fun h => hab h.symm
    · show ∀ i : Nat, i < E2.length →
        (edgeAt E2 (twinIdx i : Int)).fromId = (edgeAt E2 (i : Int)).toId ∧
        (edgeAt E2 (twinIdx i : Int)).toId = (edgeAt E2 (i : Int)).fromId
      intro i hi
      rw [hElen] at hi
      rcases Nat.lt_or_ge i G.m_edges.length with hiL | hiGe
      · rw [hEold i hiL, hEold (twinIdx i) (twinIdx_lt _ i hwf.evenE hiL)]
        exact hwf.twinFrom i hiL
      · have : i = G.m_edges.length ∨ i = G.m_edges.length + 1 := by omega
        rcases this with rfl | rfl
        · have ht : twinIdx G.m_edges.length = G.m_edges.length + 1 := by
            unfold twinIdx
            rw [if_pos hwf.evenE]
          rw [ht, hE1, hE2e]
          exact ⟨rfl, rfl⟩
        · have ht : twinIdx (G.m_edges.length + 1) = G.m_edges.length := by
            unfold twinIdx
            rw [if_neg (by have := hwf.evenE; omega)]
            omega
          rw [ht, hE1, hE2e]
          exact ⟨rfl, rfl⟩
    · show ∀ n : Nat, n < N2.length →
        ∀ eid ∈ (nodeAt N2 (n : Int)).outgoingEdges,
          0 ≤ eid ∧ eid < (E2.length : Int) ∧
          (edgeAt E2 eid).fromId = (n : Int)
      intro n hn eid hmem
      rw [hNlen] at hn
      rw [hElen]
      by_cases hna : n = a.toNat
      · subst hna
        rw [hca, hNa] at hmem
        rcases List.mem_append.1 hmem with hold | hnew
        · have hres := hwf.outFrom a.toNat (by omega) eid (by rw [hca]; exact hold)
          refine ⟨hres.1, by have := hres.2.1; omega, ?_⟩
          rw [hEoldInt eid hres.1 hres.2.1]
          exact hres.2.2
        · rcases List.mem_singleton.1 hnew with rfl
          refine ⟨by omega, by omega, ?_⟩
          rw [hE1, he1def]
          show a = _
          omega
      · by_cases hnb : n = b.toNat
        · subst hnb
          rw [hcb, hNb] at hmem
          rcases List.mem_append.1 hmem with hold | hnew
          · have hres := hwf.outFrom b.toNat (by omega) eid (by rw [hcb]; exact hold)
            refine ⟨hres.1, by have := hres.2.1; omega, ?_⟩
            rw [hEoldInt eid hres.1 hres.2.1]
            exact hres.2.2
          · rcases List.mem_singleton.1 hnew with rfl
            refine ⟨by omega, by omega, ?_⟩
            rw [show ((G.m_edges.length : Int) + 1) =
              ((G.m_edges.length + 1 : Nat) : Int) by omega, hE2e, he2def]
            show b = _
            omega
        · rw [hNother n hna hnb] at hmem
          have hres := hwf.outFrom n hn eid hmem
          refine ⟨hres.1, by have := hres.2.1; omega, ?_⟩
          rw [hEoldInt eid hres.1 hres.2.1]
          exact hres.2.2
    · show ∀ n : Nat, n < N2.length → (nodeAt N2 (n : Int)).outgoingEdges.Nodup
      intro n hn
      rw [hNlen] at hn
      by_cases hna : n = a.toNat
      · subst hna
        rw [hca, hNa]
        show ((nodeAt G.m_nodes a).outgoingEdges ++
          [(G.m_edges.length : Int)]).Nodup
        rw [List.nodup_append]
        refine ⟨by rw [← hca]; exact hwf.outNodup a.toNat (by omega),
          List.nodup_singleton _, ?_⟩
        intro x hx1 hx2
        have hx3 : x = (G.m_edges.length : Int) := by simpa using hx2
        have hres := hwf.outFrom a.toNat (by omega) x (by rw [hca]; exact hx1)
        have := hres.2.1
        omega
      · by_cases hnb : n = b.toNat
        · subst hnb
          rw [hcb, hNb]
          show ((nodeAt G.m_nodes b).outgoingEdges ++
            [(G.m_edges.length : Int) + 1]).Nodup
          rw [List.nodup_append]
          refine ⟨by rw [← hcb]; exact hwf.outNodup b.toNat (by omega),
            List.nodup_singleton _, ?_⟩
          intro x hx1 hx2
          have hx3 : x = (G.m_edges.length : Int) + 1 := by simpa using hx2
          have hres := hwf.outFrom b.toNat (by omega) x (by rw [hcb]; exact hx1)
          have := hres.2.1
          omega
        · rw [hNother n hna hnb]
          exact hwf.outNodup n hn
    · show ∀ i : Nat, i < E2.length →
        (i : Int) ∈ (nodeAt N2 (edgeAt E2 (i : Int)).fromId).outgoingEdges
      intro i hi
      rw [hElen] at hi
      rcases Nat.lt_or_ge i G.m_edges.length with hiL | hiGe
      · rw [hEold i hiL]
        have hfv := hwf.fromValid i hiL
        exact hmonoInt _ _ hfv.1 (by have := hfv.2; omega) (hwf.outMem i hiL)
      · have : i = G.m_edges.length ∨ i = G.m_edges.length + 1 := by omega
        rcases this with rfl | rfl
        · rw [hE1]
          show ((G.m_edges.length : Nat) : Int) ∈
            (nodeAt N2 a).outgoingEdges
          rw [hNa]
          exact List.mem_append_right _ (List.mem_singleton.2 rfl)
        · rw [hE2e]
          show ((G.m_edges.length + 1 : Nat) : Int) ∈
            (nodeAt N2 b).outgoingEdges
          rw [hNb]
          refine List.mem_append_right _ (List.mem_singleton.2 ?_)
          omega
  · intro i hi
    rw [hElen] at hi
    rcases Nat.lt_or_ge i G.m_edges.length with hiL | hiGe
    · rw [show edgeAt E2 (i : Int) = edgeAt G.m_edges (i : Int) from
        hEold i hiL]
      exact hu i hiL
    · have : i = G.m_edges.length ∨ i = G.m_edges.length + 1 := by omega
      rcases this with rfl | rfl
      · rw [show edgeAt E2 ((G.m_edges.length : Nat) : Int) = e1 from hE1]
      · rw [show edgeAt E2 ((G.m_edges.length + 1 : Nat) : Int) = e2 from hE2e]

theorem addSegment_wf (g : RoomGraph) (s : Segment)
    (hwf : GraphWF g) (hu : AllUnused g.m_edges) :
    GraphWF (addSegment g s) ∧ AllUnused (addSegment g s).m_edges := by
  obtain ⟨ext1, hn1, he1, hidx1, hedges1, hsnap1, hrooms1, ha0, halt, hfind1⟩ :=
    findOrCreateNode_ext g s.a hwf.idx
  have hwf1 : GraphWF (findOrCreateNode g s.a).2 :=
    graphWF_extendNodes g _ ext1 hn1 hedges1 he1 hidx1 hwf
  have hu1 : AllUnused (findOrCreateNode g s.a).2.m_edges := by
    rw [hedges1]
    exact hu
  obtain ⟨ext2, hn2, he2, hidx2, hedges2, hsnap2, hrooms2, hb0, hblt, hfind2⟩ :=
    findOrCreateNode_ext (findOrCreateNode g s.a).2 s.b hidx1
  have hwf2 : GraphWF (findOrCreateNode (findOrCreateNode g s.a).2 s.b).2 :=
    graphWF_extendNodes _ _ ext2 hn2 hedges2 he2 hidx2 hwf1
  have hu2 : AllUnused (findOrCreateNode (findOrCreateNode g s.a).2 s.b).2.m_edges := by
    rw [hedges2]
    exact hu1
  have hlen12 : (findOrCreateNode g s.a).2.m_nodes.length ≤
      (findOrCreateNode (findOrCreateNode g s.a).2 s.b).2.m_nodes.length := by
    rw [hn2, List.length_append]
    omega
  have halt2 : (findOrCreateNode g s.a).1 <
      ((findOrCreateNode (findOrCreateNode g s.a).2 s.b).2.m_nodes.length : Int) := by
    omega
  unfold addSegment
  dsimp only
  split
  · exact ⟨hwf2, hu2⟩
  · next hne =>
      exact graphWF_addPair _ hwf2 hu2 _ _ _ _ ha0 halt2 hb0 hblt hne

theorem buildNodesAndEdges_wf :
    ∀ (segs : List Segment) (g : RoomGraph), GraphWF g → AllUnused g.m_edges →
      GraphWF (buildNodesAndEdges g segs) ∧
      AllUnused (buildNodesAndEdges g segs).m_edges := by
  intro segs
  induction segs with
  | nil => intro g h hu; exact ⟨h, hu⟩
  | cons s ss ih =>
      intro g h hu
      obtain ⟨h1, hu1⟩ := addSegment_wf g s h hu
      exact ih (addSegment g s) h1 hu1

/-! ### Well-formedness through the angular sorter -/

theorem sortOutgoingByAngle_nodes_length (g : RoomGraph) :
    (sortOutgoingByAngle g).m_nodes.length = g.m_nodes.length := by
  show (g.m_nodes.map _).length = _
  rw [List.length_map]

theorem sortOutgoingByAngle_out (g : RoomGraph) (x : Int)
    (h0 : 0 ≤ x) (h : x.toNat < g.m_nodes.length) :
    (nodeAt (sortOutgoingByAngle g).m_nodes x).outgoingEdges =
      sortIdsByAngle g.m_edges (nodeAt g.m_nodes x).outgoingEdges := by
  have hx : x = ((x.toNat : Nat) : Int) := by omega
  rw [hx]
  show (nodeAt (g.m_nodes.map _) ((x.toNat : Nat) : Int)).outgoingEdges = _
  rw [nodeAt_map _ _ x.toNat h]

theorem sortOutgoingByAngle_pos (g : RoomGraph) (x : Int)
    (h0 : 0 ≤ x) (h : x.toNat < g.m_nodes.length) :
    (nodeAt (sortOutgoingByAngle g).m_nodes x).pos = (nodeAt g.m_nodes x).pos := by
  have hx : x = ((x.toNat : Nat) : Int) := by omega
  rw [hx]
  show (nodeAt (g.m_nodes.map _) ((x.toNat : Nat) : Int)).pos = _
  rw [nodeAt_map _ _ x.toNat h]

theorem sortOutgoingByAngle_wf (g : RoomGraph) (hwf : GraphWF g) :
    GraphWF (sortOutgoingByAngle g) := by
  have hedges : (sortOutgoingByAngle g).m_edges = g.m_edges := rfl
  have hidxeq : (sortOutgoingByAngle g).m_nodeIndex = g.m_nodeIndex := rfl
  have hnlen := sortOutgoingByAngle_nodes_length g
  constructor
  · constructor
    · intro pr hpr
      rw [hidxeq] at hpr
      have hb := hwf.idx.vbound pr hpr
      rw [hnlen]
      exact hb
    · rw [hidxeq]
      exact hwf.idx.vnodup
  · rw [hedges]; exact hwf.evenE
  · intro i hi; rw [hedges] at hi ⊢; exact hwf.idEq i hi
  · intro i hi; rw [hedges] at hi ⊢; exact hwf.twinEq i hi
  · intro i hi
    rw [hedges] at hi ⊢
    rw [hnlen]
    exact hwf.fromValid i hi
  · intro i hi
    rw [hedges] at hi ⊢
    rw [hnlen]
    exact hwf.toValid i hi
  · intro i hi; rw [hedges] at hi ⊢; exact hwf.fromNeTo i hi
  · intro i hi; rw [hedges] at hi ⊢; exact hwf.twinFrom i hi
  · intro n hn eid hmem
    rw [hnlen] at hn
    rw [sortOutgoingByAngle_out g (n : Int) (by omega) (by
      show ((n : Nat) : Int).toNat < _
      omega)] at hmem
    have hmem2 := (sortIdsByAngle_perm g.m_edges _).mem_iff.1 hmem
    have hres := hwf.outFrom n hn eid hmem2
    rw [hedges]
    exact hres
  · intro n hn
    rw [hnlen] at hn
    rw [sortOutgoingByAngle_out g (n : Int) (by omega) (by
      show ((n : Nat) : Int).toNat < _
      omega)]
    exact ((sortIdsByAngle_perm g.m_edges _).nodup_iff).2 (hwf.outNodup n hn)
  · intro i hi
    rw [hedges] at hi ⊢
    have hfv := hwf.fromValid i hi
    rw [sortOutgoingByAngle_out g _ hfv.1 (by have := hfv.2; omega)]
    exact ((sortIdsByAngle_perm g.m_edges _).mem_iff).2 (hwf.outMem i hi)

theorem sortOutgoingByAngle_unused (g : RoomGraph)
    (hu : AllUnused g.m_edges) :
    AllUnused (sortOutgoingByAngle g).m_edges := hu

/-! ### Well-formedness and the next relation after `buildNextRelations` -/

theorem setNextFor_fields (nodes : List Node) (e : HalfEdge) :
    (setNextFor nodes e).id = e.id ∧ (setNextFor nodes e).fromId = e.fromId ∧
    (setNextFor nodes e).toId = e.toId ∧ (setNextFor nodes e).twin = e.twin ∧
    (setNextFor nodes e).used = e.used ∧ (setNextFor nodes e).angle = e.angle := by
  unfold setNextFor
  split
  · exact ⟨rfl, rfl, rfl, rfl, rfl, rfl⟩
  · split
    · exact ⟨rfl, rfl, rfl, rfl, rfl, rfl⟩
    · split
      · exact ⟨rfl, rfl, rfl, rfl, rfl, rfl⟩
      · exact ⟨rfl, rfl, rfl, rfl, rfl, rfl⟩

theorem edgeAt_buildNext_int (g : RoomGraph) (x : Int)
    (h0 : 0 ≤ x) (h : x.toNat < g.m_edges.length) :
    edgeAt (buildNextRelations g).m_edges x =
      setNextFor g.m_nodes (edgeAt g.m_edges x) := by
  have hx : x = ((x.toNat : Nat) : Int) := by omega
  rw [hx]
  exact edgeAt_buildNextRelations g x.toNat h

theorem buildNextRelations_wf (g : RoomGraph) (hwf : GraphWF g) :
    GraphWF (buildNextRelations g) := by
  have hlen := buildNextRelations_edges_length g
  have hnodes := buildNextRelations_nodes g
  have hidxeq : (buildNextRelations g).m_nodeIndex = g.m_nodeIndex := rfl
  constructor
  · constructor
    · intro pr hpr
      rw [hidxeq] at hpr
      have hb := hwf.idx.vbound pr hpr
      rw [hnodes]
      exact hb
    · rw [hidxeq]
      exact hwf.idx.vnodup
  · rw [hlen]; exact hwf.evenE
  · intro i hi
    rw [hlen] at hi
    rw [edgeAt_buildNextRelations g i hi, (setNextFor_fields _ _).1]
    exact hwf.idEq i hi
  · intro i hi
    rw [hlen] at hi
    rw [edgeAt_buildNextRelations g i hi, (setNextFor_fields _ _).2.2.2.1]
    exact hwf.twinEq i hi
  · intro i hi
    rw [hlen] at hi
    rw [edgeAt_buildNextRelations g i hi, (setNextFor_fields _ _).2.1, hnodes]
    exact hwf.fromValid i hi
  · intro i hi
    rw [hlen] at hi
    rw [edgeAt_buildNextRelations g i hi, (setNextFor_fields _ _).2.2.1, hnodes]
    exact hwf.toValid i hi
  · intro i hi
    rw [hlen] at hi
    rw [edgeAt_buildNextRelations g i hi, (setNextFor_fields _ _).2.1,
      (setNextFor_fields _ _).2.2.1]
    exact hwf.fromNeTo i hi
  · intro i hi
    rw [hlen] at hi
    rw [edgeAt_buildNextRelations g i hi,
      edgeAt_buildNextRelations g (twinIdx i) (twinIdx_lt _ i hwf.evenE hi),
      (setNextFor_fields _ _).2.1, (setNextFor_fields _ _).2.2.1,
      (setNextFor_fields _ _).2.1, (setNextFor_fields _ _).2.2.1]
    exact hwf.twinFrom i hi
  · intro n hn eid hmem
    rw [hnodes] at hn hmem
    have hres := hwf.outFrom n hn eid hmem
    refine ⟨hres.1, by rw [hlen]; exact hres.2.1, ?_⟩
    rw [edgeAt_buildNext_int g eid hres.1 (by have := hres.2.1; omega),
      (setNextFor_fields _ _).2.1]
    exact hres.2.2
  · intro n hn
    rw [hnodes] at hn ⊢
    exact hwf.outNodup n hn
  · intro i hi
    rw [hlen] at hi
    rw [hnodes, edgeAt_buildNextRelations g i hi, (setNextFor_fields _ _).2.1]
    exact hwf.outMem i hi

theorem buildNextRelations_unused (g : RoomGraph)
    (hu : AllUnused g.m_edges) :
    AllUnused (buildNextRelations g).m_edges := by
  intro i hi
  rw [buildNextRelations_edges_length] at hi
  rw [edgeAt_buildNextRelations g i hi, (setNextFor_fields _ _).2.2.2.2.1]
  exact hu i hi

theorem outFrom_int (g : RoomGraph) (hwf : GraphWF g) (x : Int)
    (h0 : 0 ≤ x) (hx : x < (g.m_nodes.length : Int)) :
    ∀ eid ∈ (nodeAt g.m_nodes x).outgoingEdges,
      0 ≤ eid ∧ eid < (g.m_edges.length : Int) ∧
      (edgeAt g.m_edges eid).fromId = x := by
  have hx' : x = ((x.toNat : Nat) : Int) := by omega
  rw [hx']
  exact hwf.outFrom x.toNat (by omega)

theorem outNodup_int (g : RoomGraph) (hwf : GraphWF g) (x : Int)
    (h0 : 0 ≤ x) (hx : x < (g.m_nodes.length : Int)) :
    (nodeAt g.m_nodes x).outgoingEdges.Nodup := by
  have hx' : x = ((x.toNat : Nat) : Int) := by omega
  rw [hx']
  exact hwf.outNodup x.toNat (by omega)

/-- In a well-formed graph every half-edge's twin occurs in the
angular list of its target node, so the linear search of
`buildNextRelations` (lines 177-184) always succeeds and `next` is set
to the circular predecessor. -/
theorem next_found (g : RoomGraph) (hwf : GraphWF g) (i : Nat)
    (h : i < g.m_edges.length) :
    ∃ p : Nat,
      findPos (edgeAt g.m_edges (i : Int)).twin
        (nodeAt g.m_nodes (edgeAt g.m_edges (i : Int)).toId).outgoingEdges
        = some p ∧
      ∃ hb : prevCirc p
          (nodeAt g.m_nodes (edgeAt g.m_edges (i : Int)).toId).outgoingEdges.length <
          (nodeAt g.m_nodes (edgeAt g.m_edges (i : Int)).toId).outgoingEdges.length,
        (edgeAt (buildNextRelations g).m_edges (i : Int)).next =
          (nodeAt g.m_nodes (edgeAt g.m_edges (i : Int)).toId).outgoingEdges.get
            ⟨prevCirc p
              (nodeAt g.m_nodes
                (edgeAt g.m_edges (i : Int)).toId).outgoingEdges.length, hb⟩ := by
  have hB := hwf.toValid i h
  have htw := hwf.twinEq i h
  have htl := twinIdx_lt g.m_edges.length i hwf.evenE h
  have hfrom := (hwf.twinFrom i h).1
  have hmem0 := hwf.outMem (twinIdx i) htl
  rw [hfrom] at hmem0
  have hmem : (edgeAt g.m_edges (i : Int)).twin ∈
      (nodeAt g.m_nodes (edgeAt g.m_edges (i : Int)).toId).outgoingEdges := by
    rw [htw]; exact hmem0
  obtain ⟨p, hp⟩ := findPos_some_of_mem _ _ hmem
  obtain ⟨hplt, hpget⟩ := findPos_spec _ _ p hp
  have hlenpos : 0 < (nodeAt g.m_nodes
      (edgeAt g.m_edges (i : Int)).toId).outgoingEdges.length := by omega
  have hb : prevCirc p (nodeAt g.m_nodes
      (edgeAt g.m_edges (i : Int)).toId).outgoingEdges.length <
      (nodeAt g.m_nodes (edgeAt g.m_edges (i : Int)).toId).outgoingEdges.length :=
    prevCirc_lt p _ hlenpos hplt
  refine ⟨p, hp, hb, ?_⟩
  have hne : (nodeAt g.m_nodes
      (edgeAt g.m_edges (i : Int)).toId).outgoingEdges.isEmpty = false := by
    cases hout : (nodeAt g.m_nodes
        (edgeAt g.m_edges (i : Int)).toId).outgoingEdges with
    | nil => rw [hout] at hplt; simp at hplt
    | cons a l => rfl
  have hguard : ¬ ((edgeAt g.m_edges (i : Int)).toId < 0 ∨
      (g.m_nodes.length : Int) ≤ (edgeAt g.m_edges (i : Int)).toId) := by omega
  rw [edgeAt_buildNextRelations g i h]
  unfold setNextFor
  rw [if_neg hguard, hne]
  simp only [Bool.false_eq_true, if_false]
  rw [hp]
  dsimp only
  show ((nodeAt g.m_nodes (edgeAt g.m_edges (i : Int)).toId).outgoingEdges.get?
      (prevCirc p (nodeAt g.m_nodes
        (edgeAt g.m_edges (i : Int)).toId).outgoingEdges.length)).getD 0 = _
  rw [List.get?_eq_get hb]
  rfl

theorem buildNext_next_mem (g : RoomGraph) (hwf : GraphWF g) (i : Nat)
    (h : i < g.m_edges.length) :
    (edgeAt (buildNextRelations g).m_edges (i : Int)).next ∈
      (nodeAt g.m_nodes (edgeAt g.m_edges (i : Int)).toId).outgoingEdges := by
  obtain ⟨p, hp, hb, hnext⟩ := next_found g hwf i h
  rw [hnext]
  exact List.get_mem _ _ _

theorem buildNext_nextTotal (g : RoomGraph) (hwf : GraphWF g) (i : Nat)
    (h : i < g.m_edges.length) :
    0 ≤ (edgeAt (buildNextRelations g).m_edges (i : Int)).next ∧
    (edgeAt (buildNextRelations g).m_edges (i : Int)).next <
      (g.m_edges.length : Int) ∧
    (edgeAt g.m_edges
        (edgeAt (buildNextRelations g).m_edges (i : Int)).next).fromId =
      (edgeAt g.m_edges (i : Int)).toId := by
  have hB := hwf.toValid i h
  have hmem := buildNext_next_mem g hwf i h
  exact outFrom_int g hwf _ hB.1 hB.2 _ hmem

theorem buildNext_ne_self (g : RoomGraph) (hwf : GraphWF g) (i : Nat)
    (h : i < g.m_edges.length) :
    (edgeAt (buildNextRelations g).m_edges (i : Int)).next ≠ (i : Int) := by
  intro heq
  have ht := (buildNext_nextTotal g hwf i h).2.2
  rw [heq] at ht
  exact hwf.fromNeTo i h ht

theorem buildNext_nextInj (g : RoomGraph) (hwf : GraphWF g) (i j : Nat)
    (hi : i < g.m_edges.length) (hj : j < g.m_edges.length)
    (heq : (edgeAt (buildNextRelations g).m_edges (i : Int)).next =
           (edgeAt (buildNextRelations g).m_edges (j : Int)).next) :
    i = j := by
  obtain ⟨pi, hpi, hbi, hni⟩ := next_found g hwf i hi
  obtain ⟨pj, hpj, hbj, hnj⟩ := next_found g hwf j hj
  have hpilt := (findPos_spec _ _ pi hpi).1
  have hpigetv := (findPos_spec _ _ pi hpi).2
  have hpjlt := (findPos_spec _ _ pj hpj).1
  have hpjgetv := (findPos_spec _ _ pj hpj).2
  have hti := (buildNext_nextTotal g hwf i hi).2.2
  have htj := (buildNext_nextTotal g hwf j hj).2.2
  have htid : (edgeAt g.m_edges (i : Int)).toId =
      (edgeAt g.m_edges (j : Int)).toId := by
    rw [← hti, ← htj, heq]
  have hgi : (nodeAt g.m_nodes
      (edgeAt g.m_edges (i : Int)).toId).outgoingEdges.get?
        (prevCirc pi (nodeAt g.m_nodes
          (edgeAt g.m_edges (i : Int)).toId).outgoingEdges.length) =
      some ((edgeAt (buildNextRelations g).m_edges (i : Int)).next) := by
    rw [hni]; exact List.get?_eq_get hbi
  have hgj : (nodeAt g.m_nodes
      (edgeAt g.m_edges (j : Int)).toId).outgoingEdges.get?
        (prevCirc pj (nodeAt g.m_nodes
          (edgeAt g.m_edges (j : Int)).toId).outgoingEdges.length) =
      some ((edgeAt (buildNextRelations g).m_edges (j : Int)).next) := by
    rw [hnj]; exact List.get?_eq_get hbj
  rw [← htid] at hgj hpj hpjlt hpjgetv
  rw [← heq] at hgj
  have hB := hwf.toValid i hi
  have hnd := outNodup_int g hwf _ hB.1 hB.2
  have hlenpos : 0 < (nodeAt g.m_nodes
      (edgeAt g.m_edges (i : Int)).toId).outgoingEdges.length := by omega
  have hposeq : prevCirc pi (nodeAt g.m_nodes
        (edgeAt g.m_edges (i : Int)).toId).outgoingEdges.length =
      prevCirc pj (nodeAt g.m_nodes
        (edgeAt g.m_edges (i : Int)).toId).outgoingEdges.length :=
    List.get?_inj (prevCirc_lt pi _ hlenpos hpilt) hnd (hgi.trans hgj.symm)
  have hpeq : pi = pj := prevCirc_inj pi pj _ hpilt hpjlt hposeq
  rw [hpeq] at hpigetv
  rw [hpigetv] at hpjgetv
  have htweq : (edgeAt g.m_edges (i : Int)).twin =
      (edgeAt g.m_edges (j : Int)).twin := Option.some.inj hpjgetv
  rw [hwf.twinEq i hi, hwf.twinEq j hj] at htweq
  have : twinIdx i = twinIdx j := by omega
  exact twinIdx_inj i j this

theorem buildNext_walkWF (g : RoomGraph) (hwf : GraphWF g) :
    WalkWF (buildNextRelations g).m_nodes (buildNextRelations g).m_edges := by
  have hwf2 := buildNextRelations_wf g hwf
  have hlen := buildNextRelations_edges_length g
  constructor
  · exact hwf2.idEq
  · exact hwf2.fromValid
  · intro i hi
    rw [hlen] at hi
    have ht := buildNext_nextTotal g hwf i hi
    exact ⟨ht.1, by rw [hlen]; exact ht.2.1⟩
  · intro i j hi hj heq
    rw [hlen] at hi hj
    unfold nextIdx at heq
    rw [if_pos (by rw [hlen]; exact hi), if_pos (by rw [hlen]; exact hj)] at heq
    have hti := (buildNext_nextTotal g hwf i hi).1
    have htj := (buildNext_nextTotal g hwf j hj).1
    have heq' : (edgeAt (buildNextRelations g).m_edges (i : Int)).next =
        (edgeAt (buildNextRelations g).m_edges (j : Int)).next := by omega
    exact buildNext_nextInj g hwf i j hi hj heq'

/-! ### The `used`-flag modification order and orbit arithmetic -/

theorem sameMod_refl (edges : List HalfEdge) : SameMod edges edges :=
  ⟨rfl, fun _ _ => Or.inl rfl⟩

theorem sameMod_trans {e1 e2 e3 : List HalfEdge}
    (h12 : SameMod e1 e2) (h23 : SameMod e2 e3) : SameMod e1 e3 := by
  refine ⟨h23.1.trans h12.1, ?_⟩
  intro i hi
  have h2 := h12.2 i hi
  have h3 := h23.2 i (by rw [h12.1]; exact hi)
  cases h2 with
  | inl h2 =>
      rw [h2] at h3
      exact h3
  | inr h2 =>
      rw [h2] at h3
      cases h3 with
      | inl h3 => right; exact h3
      | inr h3 => right; rw [h3]


theorem sameMod_markUsed (edges : List HalfEdge) (c : Int) :
    SameMod edges (markUsed edges c) :=
  ⟨markUsed_length _ _, fun i _ => edgeAt_markUsed edges c i⟩

theorem sameMod_fields {edges edges' : List HalfEdge} (h : SameMod edges edges')
    (i : Nat) (hi : i < edges.length) :
    (edgeAt edges' (i : Int)).id = (edgeAt edges (i : Int)).id ∧
    (edgeAt edges' (i : Int)).fromId = (edgeAt edges (i : Int)).fromId ∧
    (edgeAt edges' (i : Int)).toId = (edgeAt edges (i : Int)).toId ∧
    (edgeAt edges' (i : Int)).twin = (edgeAt edges (i : Int)).twin ∧
    (edgeAt edges' (i : Int)).next = (edgeAt edges (i : Int)).next := by
  cases h.2 i hi with
  | inl h' => rw [h']; exact ⟨rfl, rfl, rfl, rfl, rfl⟩
  | inr h' => rw [h']; exact ⟨rfl, rfl, rfl, rfl, rfl⟩

theorem sameMod_nextIdx {edges edges' : List HalfEdge} (h : SameMod edges edges')
    (i : Nat) : nextIdx edges' i = nextIdx edges i := by
  unfold nextIdx
  by_cases hi : i < edges.length
  · rw [if_pos (by rw [h.1]; exact hi), if_pos hi,
      (sameMod_fields h i hi).2.2.2.2]
  · rw [if_neg (by rw [h.1]; exact hi), if_neg hi]

theorem sameMod_walkWF {nodes : List Node} {edges edges' : List HalfEdge}
    (h : SameMod edges edges') (hwf : WalkWF nodes edges) :
    WalkWF nodes edges' := by
  constructor
  · intro i hi
    rw [h.1] at hi
    rw [(sameMod_fields h i hi).1]
    exact hwf.idEq i hi
  · intro i hi
    rw [h.1] at hi
    rw [(sameMod_fields h i hi).2.1]
    exact hwf.fromValid i hi
  · intro i hi
    rw [h.1] at hi
    rw [(sameMod_fields h i hi).2.2.2.2, h.1]
    exact hwf.nextTotal i hi
  · intro i j hi hj heq
    rw [h.1] at hi hj
    rw [sameMod_nextIdx h i, sameMod_nextIdx h j] at heq
    exact hwf.nextInj i j hi hj heq

theorem used_markUsed_iff (edges : List HalfEdge) (c : Nat)
    (j : Nat) (hj : j < edges.length) :
    (edgeAt (markUsed edges (c : Int)) (j : Int)).used = true ↔
      (edgeAt edges (j : Int)).used = true ∨ j = c := by
  by_cases hjc : j = c
  · subst hjc
    rw [edgeAt_markUsed_self edges j hj]
    simp
  · rw [edgeAt_markUsed_ne edges (c : Int) j (by omega)]
    simp [hjc]

theorem iterate_lt {f : Nat → Nat} {L : Nat} (hf : ∀ x, x < L → f x < L) :
    ∀ (k s : Nat), s < L → f^[k] s < L := by
  intro k
  induction k with
  | zero => intro s hs; simpa using hs
  | succ n ih =>
      intro s hs
      rw [Function.iterate_succ_apply]
      exact ih (f s) (hf s hs)

theorem iterate_inj {f : Nat → Nat} {L : Nat} (hf : ∀ x, x < L → f x < L)
    (hinj : ∀ x y, x < L → y < L → f x = f y → x = y) :
    ∀ (k x y : Nat), x < L → y < L → f^[k] x = f^[k] y → x = y := by
  intro k
  induction k with
  | zero => intro x y _ _ h; simpa using h
  | succ n ih =>
      intro x y hx hy h
      rw [Function.iterate_succ_apply, Function.iterate_succ_apply] at h
      exact hinj x y hx hy (ih (f x) (f y) (hf x hx) (hf y hy) h)

/-- An injective self-map of the first `L` naturals returns every start
point to itself within `L` steps (pigeonhole). -/
theorem exists_return {f : Nat → Nat} {L : Nat} (hf : ∀ x, x < L → f x < L)
    (hinj : ∀ x y, x < L → y < L → f x = f y → x = y)
    (s : Nat) (hs : s < L) :
    ∃ t : Nat, 0 < t ∧ t ≤ L ∧ f^[t] s = s := by
  have hmap : ∀ k ∈ Finset.range (L + 1), f^[k] s ∈ Finset.range L := by
    intro k _
    exact Finset.mem_range.2 (iterate_lt hf k s hs)
  have hcard : (Finset.range L).card < (Finset.range (L + 1)).card := by
    simp
  obtain ⟨a, ha, b, hb, hab, hfab⟩ :=
    Finset.exists_ne_map_eq_of_card_lt_of_maps_to hcard hmap
  rcases Nat.lt_or_ge a b with hlt | hge
  · refine ⟨b - a, by omega, ?_, ?_⟩
    · have := Finset.mem_range.1 hb; omega
    · have hsplit : f^[a] (f^[b - a] s) = f^[a] s := by
        rw [← Function.iterate_add_apply]
        have hba : a + (b - a) = b := by omega
        rw [hba]
        exact hfab.symm
      exact iterate_inj hf hinj a _ s (iterate_lt hf _ s hs) hs hsplit
  · have hlt : b < a := by omega
    refine ⟨a - b, by omega, ?_, ?_⟩
    · have := Finset.mem_range.1 ha; omega
    · have hsplit : f^[b] (f^[a - b] s) = f^[b] s := by
        rw [← Function.iterate_add_apply]
        have hba : b + (a - b) = a := by omega
        rw [hba]
        exact hfab
      exact iterate_inj hf hinj b _ s (iterate_lt hf _ s hs) hs hsplit

/-- Core closure lemma for the inner loop of `walkCycles`: walking from
position `k` of the (minimal-period-`T`) forward orbit of an unused start
edge `s`, with every orbit edge from position `k` on still unused, the
loop marks those orbit edges used one by one and ends with `closed`; the
output edge array differs from the input exactly by those `used` flags. -/
theorem walkLoop_closes (nodes : List Node) (edges0 : List HalfEdge)
    (hwf : WalkWF nodes edges0) (s : Nat) (hs : s < edges0.length)
    (T : Nat) (hTs : (nextIdx edges0)^[T] s = s)
    (hmin : ∀ m, 0 < m → m < T → (nextIdx edges0)^[m] s ≠ s) :
    ∀ (d k : Nat), k + d = T → k < T →
    ∀ (E : List HalfEdge) (fuel : Nat) (poly : List Vec2),
      SameMod edges0 E → T - k < fuel →
      (∀ m, k ≤ m → m < T →
        (edgeAt E (((nextIdx edges0)^[m] s : Nat) : Int)).used = false) →
      (walkLoop nodes (s : Int) fuel E
          (((nextIdx edges0)^[k] s : Nat) : Int) poly).reason = WalkEnd.closed ∧
      SameMod edges0 (walkLoop nodes (s : Int) fuel E
          (((nextIdx edges0)^[k] s : Nat) : Int) poly).edges ∧
      (∀ j : Nat, j < edges0.length →
        ((edgeAt (walkLoop nodes (s : Int) fuel E
            (((nextIdx edges0)^[k] s : Nat) : Int) poly).edges (j : Int)).used = true ↔
          (edgeAt E (j : Int)).used = true ∨
          ∃ m, k ≤ m ∧ m < T ∧ (nextIdx edges0)^[m] s = j)) := by
  have hfmaps : ∀ x, x < edges0.length → nextIdx edges0 x < edges0.length := by
    intro x hx
    unfold nextIdx
    rw [if_pos hx]
    have := hwf.nextTotal x hx
    omega
  have horb : ∀ m m' : Nat, m' < m → m < T →
      (nextIdx edges0)^[m] s ≠ (nextIdx edges0)^[m'] s := by
    intro m m' hlt hmT heq
    have hsplit : (nextIdx edges0)^[m'] ((nextIdx edges0)^[m - m'] s) =
        (nextIdx edges0)^[m'] s := by
      rw [← Function.iterate_add_apply]
      have hmm : m' + (m - m') = m := by omega
      rw [hmm]
      exact heq
    have hret := iterate_inj hfmaps hwf.nextInj m' _ s
      (iterate_lt hfmaps _ s hs) hs hsplit
    exact hmin (m - m') (by omega) (by omega) hret
  intro d
  induction d with
  | zero =>
      intro k hkd hk
      exact absurd hkd (by omega)
  | succ d ih =>
      intro k hkd hk E fuel poly hSM hfuel hunused
      cases fuel with
      | zero => exact absurd hfuel (by omega)
      | succ fu =>
          set c : Nat := (nextIdx edges0)^[k] s with hc
          have hcL : c < edges0.length := iterate_lt hfmaps k s hs
          have hcE : c < E.length := by rw [hSM.1]; exact hcL
          have hecn : edgeAt? E ((c : Nat) : Int) =
              some (edgeAt E ((c : Nat) : Int)) := by
            rw [edgeAt?_nat E c hcE, edgeAt_nat E c hcE]
          have hcu : (edgeAt E ((c : Nat) : Int)).used = false :=
            hunused k (le_refl k) hk
          have hnu : ¬ ((edgeAt E ((c : Nat) : Int)).used = true) := by
            rw [hcu]; exact Bool.false_ne_true
          have hflds := sameMod_fields hSM c hcL
          have hfrom := hwf.fromValid c hcL
          have hnextT := hwf.nextTotal c hcL
          have hnodeok : ¬ ((edgeAt E ((c : Nat) : Int)).fromId < 0 ∨
              (nodes.length : Int) ≤ (edgeAt E ((c : Nat) : Int)).fromId) := by
            rw [hflds.2.1]
            have := hfrom
            omega
          have hnegok : ¬ ((edgeAt E ((c : Nat) : Int)).next < 0) := by
            rw [hflds.2.2.2.2]
            have := hnextT
            omega
          have hnextv : (edgeAt E ((c : Nat) : Int)).next =
              (((nextIdx edges0)^[k + 1] s : Nat) : Int) := by
            rw [hflds.2.2.2.2, Function.iterate_succ_apply', ← hc]
            unfold nextIdx
            rw [if_pos hcL]
            have := hnextT
            omega
          by_cases hkT : k + 1 = T
          · have hnexts : (edgeAt E ((c : Nat) : Int)).next =
                ((s : Nat) : Int) := by
              rw [hnextv, hkT, hTs]
            simp only [walkLoop]
            rw [hecn]
            dsimp only
            rw [if_neg hnu, if_neg hnodeok, if_neg hnegok, if_pos hnexts]
            refine ⟨rfl, sameMod_trans hSM (sameMod_markUsed E _), ?_⟩
            intro j hj
            have hjE : j < E.length := by rw [hSM.1]; exact hj
            show (edgeAt (markUsed E ((c : Nat) : Int)) (j : Int)).used = true ↔ _
            rw [used_markUsed_iff E c j hjE]
            constructor
            · rintro (h | h)
              · exact Or.inl h
              · exact Or.inr ⟨k, le_refl k, hk, by rw [← hc]; exact h.symm⟩
            · rintro (h | ⟨m, h1, h2, h3⟩)
              · exact Or.inl h
              · have hmk : m = k := by omega
                subst hmk
                rw [← hc] at h3
                exact Or.inr h3.symm
          · have hfx : (nextIdx edges0)^[k + 1] s ≠ s :=
              hmin (k + 1) (by omega) (by omega)
            have hnne : ¬ ((edgeAt E ((c : Nat) : Int)).next =
                ((s : Nat) : Int)) := by
              rw [hnextv]
              intro hh
              exact hfx (by omega)
            have hSM1 : SameMod edges0 (markUsed E ((c : Nat) : Int)) :=
              sameMod_trans hSM (sameMod_markUsed E _)
            have hunused1 : ∀ m, k + 1 ≤ m → m < T →
                (edgeAt (markUsed E ((c : Nat) : Int))
                  (((nextIdx edges0)^[m] s : Nat) : Int)).used = false := by
              intro m hm1 hmT
              rw [edgeAt_markUsed_ne E ((c : Nat) : Int) _ (by
                have h9 := horb m k (by omega) hmT
                rw [← hc] at h9
                omega)]
              exact hunused m (by omega) hmT
            obtain ⟨hr, hsm, hused⟩ := ih (k + 1) (by omega) (by omega)
              (markUsed E ((c : Nat) : Int)) fu
              (poly ++ [(nodeAt nodes (edgeAt E ((c : Nat) : Int)).fromId).pos])
              hSM1 (by omega) hunused1
            simp only [walkLoop]
            rw [hecn]
            dsimp only
            rw [if_neg hnu, if_neg hnodeok, if_neg hnegok, if_neg hnne, hnextv]
            refine ⟨hr, hsm, ?_⟩
            intro j hj
            have hjE : j < E.length := by rw [hSM.1]; exact hj
            rw [hused j hj, used_markUsed_iff E c j hjE]
            constructor
            · rintro ((h | h) | ⟨m, h1, h2, h3⟩)
              · exact Or.inl h
              · exact Or.inr ⟨k, le_refl k, hk, by rw [← hc]; exact h.symm⟩
              · exact Or.inr ⟨m, by omega, h2, h3⟩
            · rintro (h | ⟨m, h1, h2, h3⟩)
              · exact Or.inl (Or.inl h)
              · by_cases hmk : m = k
                · subst hmk
                  refine Or.inl (Or.inr ?_)
                  rw [← hc] at h3
                  exact h3.symm
                · exact Or.inr ⟨m, by omega, h2, h3⟩

/-- One outer-loop index of `walkCycles` preserves the invariant: the
edge array differs from the reference state only in `used` flags, the
used set is a union of complete `next`-cycles, and every walk logged so
far ended by closing back at its start edge. -/
theorem walkCyclesStep_inv (nodes : List Node) (edges0 : List HalfEdge)
    (hwf : WalkWF nodes edges0) (st : CycleState) (i : Nat)
    (hS : SameMod edges0 st.edges) (hU : UsedClosed st.edges)
    (hlog : ∀ pr ∈ st.log, pr.1 = WalkEnd.closed) :
    SameMod edges0 (walkCyclesStep nodes st i).edges ∧
    UsedClosed (walkCyclesStep nodes st i).edges ∧
    (∀ pr ∈ (walkCyclesStep nodes st i).log, pr.1 = WalkEnd.closed) := by
  have hfmaps : ∀ x, x < edges0.length → nextIdx edges0 x < edges0.length := by
    intro x hx
    unfold nextIdx
    rw [if_pos hx]
    have := hwf.nextTotal x hx
    omega
  unfold walkCyclesStep
  cases hget : st.edges.get? i with
  | none => exact ⟨hS, hU, hlog⟩
  | some start =>
      dsimp only
      by_cases hu : start.used = true
      · rw [if_pos hu]
        exact ⟨hS, hU, hlog⟩
      · rw [if_neg hu]
        have hstartused : start.used = false := by
          revert hu; cases start.used <;> simp
        obtain ⟨hi, hgeti⟩ := List.get?_eq_some.1 hget
        have hiL : i < edges0.length := by rw [← hS.1]; exact hi
        have hstart : edgeAt st.edges (i : Int) = start := by
          rw [edgeAt_nat st.edges i hi, hgeti]
        have hsid : start.id = (i : Int) := by
          have h9 := (sameMod_walkWF hS hwf).idEq i hi
          rw [hstart] at h9
          exact h9
        obtain ⟨t, ht0, htL, hts⟩ :=
          exists_return hfmaps hwf.nextInj i hiL
        have hPex : ∃ u, 0 < u ∧ (nextIdx edges0)^[u] i = i := ⟨t, ht0, hts⟩
        have hT := Nat.find_spec hPex
        have hTle : Nat.find hPex ≤ edges0.length :=
          le_trans (Nat.find_le ⟨ht0, hts⟩) htL
        have hmin : ∀ m, 0 < m → m < Nat.find hPex →
            (nextIdx edges0)^[m] i ≠ i := by
          intro m hm hmT heq
          exact Nat.find_min hPex hmT ⟨hm, heq⟩
        have hforward : ∀ (r j : Nat), j < edges0.length →
            (edgeAt st.edges (j : Int)).used = true →
            (edgeAt st.edges (((nextIdx edges0)^[r] j : Nat) : Int)).used
              = true := by
          intro r
          induction r with
          | zero => intro j _ h; simpa using h
          | succ n ihr =>
              intro j hj h
              rw [Function.iterate_succ_apply]
              apply ihr (nextIdx edges0 j) (hfmaps j hj)
              have h2 := hU j (by rw [hS.1]; exact hj) h
              rwa [sameMod_nextIdx hS j] at h2
        have horbun : ∀ m, 0 ≤ m → m < Nat.find hPex →
            (edgeAt st.edges (((nextIdx edges0)^[m] i : Nat) : Int)).used
              = false := by
          intro m _ hmT
          by_contra hcon
          have hcon' : (edgeAt st.edges
              (((nextIdx edges0)^[m] i : Nat) : Int)).used = true := by
            revert hcon
            cases (edgeAt st.edges (((nextIdx edges0)^[m] i : Nat) : Int)).used
              <;> simp
          have h3 := hforward (Nat.find hPex - m) _
            (iterate_lt hfmaps m i hiL) hcon'
          rw [← Function.iterate_add_apply] at h3
          have hrm : Nat.find hPex - m + m = Nat.find hPex := by omega
          rw [hrm, hT.2, hstart, hstartused] at h3
          cases h3
        obtain ⟨hr0, hsm0, hused0⟩ := walkLoop_closes nodes edges0 hwf i hiL
          (Nat.find hPex) hT.2 hmin (Nat.find hPex) 0 (by omega) hT.1
          st.edges (st.edges.length + 1) [] hS (by rw [hS.1]; omega) horbun
        simp only [Function.iterate_zero_apply] at hr0 hsm0 hused0
        have hUC' : UsedClosed (walkLoop nodes (i : Int)
            (st.edges.length + 1) st.edges (i : Int) []).edges := by
          intro j hjW hjused
          have hjL : j < edges0.length := by
            rw [← hsm0.1]
            exact hjW
          have hfjL : nextIdx edges0 j < edges0.length := hfmaps j hjL
          have hju := (hused0 j hjL).1 hjused
          rw [sameMod_nextIdx hsm0 j]
          show (edgeAt (walkLoop nodes (i : Int) (st.edges.length + 1)
            st.edges (i : Int) []).edges ((nextIdx edges0 j : Nat) : Int)).used
              = true
          apply (hused0 (nextIdx edges0 j) hfjL).2
          cases hju with
          | inl h =>
              left
              have h2 := hU j (by rw [hS.1]; exact hjL) h
              rwa [sameMod_nextIdx hS j] at h2
          | inr h =>
              obtain ⟨m, _, hmT, hmj⟩ := h
              have hfj : nextIdx edges0 j = (nextIdx edges0)^[m + 1] i := by
                rw [Function.iterate_succ_apply', hmj]
              by_cases hmT1 : m + 1 = Nat.find hPex
              · right
                have hji : nextIdx edges0 j = i := by
                  rw [hfj, hmT1, hT.2]
                exact ⟨0, le_refl 0, hT.1, by simp [hji]⟩
              · right
                exact ⟨m + 1, by omega, by omega, hfj.symm⟩
        have hlog' : ∀ b : Bool, ∀ pr ∈ st.log ++
            [((walkLoop nodes (i : Int) (st.edges.length + 1)
              st.edges (i : Int) []).reason, b)], pr.1 = WalkEnd.closed := by
          intro b pr hpr
          rcases List.mem_append.1 hpr with h | h
          · exact hlog pr h
          · have h2 := List.mem_singleton.1 h
            rw [h2]
            exact hr0
        rw [hsid]
        split
        · exact ⟨hsm0, hUC', hlog' false⟩
        · split
          · exact ⟨hsm0, hUC', hlog' false⟩
          · split
            · exact ⟨hsm0, hUC', hlog' false⟩
            · exact ⟨hsm0, hUC', hlog' true⟩

theorem walkCycles_foldl_inv (nodes : List Node) (edges0 : List HalfEdge)
    (hwf : WalkWF nodes edges0) :
    ∀ (idxs : List Nat) (st : CycleState),
      SameMod edges0 st.edges → UsedClosed st.edges →
      (∀ pr ∈ st.log, pr.1 = WalkEnd.closed) →
      SameMod edges0 (idxs.foldl (walkCyclesStep nodes) st).edges ∧
      UsedClosed (idxs.foldl (walkCyclesStep nodes) st).edges ∧
      (∀ pr ∈ (idxs.foldl (walkCyclesStep nodes) st).log,
        pr.1 = WalkEnd.closed) := by
  intro idxs
  induction idxs with
  | nil => intro st h1 h2 h3; exact ⟨h1, h2, h3⟩
  | cons a as ih =>
      intro st h1 h2 h3
      obtain ⟨g1, g2, g3⟩ := walkCyclesStep_inv nodes edges0 hwf st a h1 h2 h3
      exact ih _ g1 g2 g3

/-- `walkCycles` on a graph whose `next` function is total and injective
and whose edges are all unused: the edge array changes only in `used`
flags and every logged walk ended closed. -/
theorem walkCycles_results (g3 : RoomGraph)
    (hwwf : WalkWF g3.m_nodes g3.m_edges) (hau : AllUnused g3.m_edges) :
    SameMod g3.m_edges (walkCycles g3).1.m_edges ∧
    (∀ pr ∈ (walkCycles g3).2, pr.1 = WalkEnd.closed) := by
  have hstart : UsedClosed g3.m_edges := by
    intro j hj hused
    have h2 := hau j hj
    unfold usedAt at hused
    rw [h2] at hused
    cases hused
  obtain ⟨h1, _, h3⟩ := walkCycles_foldl_inv g3.m_nodes g3.m_edges hwwf
    (List.range g3.m_edges.length) ⟨g3.m_edges, g3.m_rooms, []⟩
    (sameMod_refl _) hstart (by intro pr hpr; cases hpr)
  exact ⟨h1, h3⟩

/-- The graph state just before `walkCycles` inside a non-trivial
`build`: structurally well formed, all edges unused, and the walk
preconditions hold. -/
theorem build_pipeline (g : RoomGraph) (segs : List Segment) :
    GraphWF (buildNextRelations (sortOutgoingByAngle
      (buildNodesAndEdges (clear g) segs))) ∧
    AllUnused (buildNextRelations (sortOutgoingByAngle
      (buildNodesAndEdges (clear g) segs))).m_edges ∧
    WalkWF (buildNextRelations (sortOutgoingByAngle
        (buildNodesAndEdges (clear g) segs))).m_nodes
      (buildNextRelations (sortOutgoingByAngle
        (buildNodesAndEdges (clear g) segs))).m_edges := by
  obtain ⟨h1, hu1⟩ := buildNodesAndEdges_wf segs (clear g)
    (graphWF_clear g) (allUnused_clear g)
  have h2 := sortOutgoingByAngle_wf _ h1
  have hu2 := sortOutgoingByAngle_unused _ hu1
  exact ⟨buildNextRelations_wf _ h2, buildNextRelations_unused _ hu2,
    buildNext_walkWF _ h2⟩

/-- C1: every walk the cycle walker actually starts during a build ends
by closing back at its starting edge (the `next` successor is total and
injective on a built graph, and the used set always consists of complete
cycles, so the dead-end and revisit exits are unreachable); consequently
a walk that ends without closing never emits a Room. -/
theorem claim_C1 (g : RoomGraph) (segs : List Segment) :
    ∀ pr ∈ (buildRun g segs).2,
      pr.1 = WalkEnd.closed ∧ (pr.1 ≠ WalkEnd.closed → pr.2 = false) := by
  intro pr hpr
  unfold buildRun at hpr
  by_cases hemp : segs.isEmpty
  · rw [if_pos hemp] at hpr
    cases hpr
  · rw [if_neg hemp] at hpr
    obtain ⟨hwf3, hau3, hwwf3⟩ := build_pipeline g segs
    have hclosed := (walkCycles_results _ hwwf3 hau3).2 pr hpr
    exact ⟨hclosed, fun hne => absurd hclosed hne⟩

unseal Rat.add Rat.mul Rat.inv Rat.sub in
/-- C1 (witness): building the 10 by 10 square actually starts walks, and
the first logged walk closed and emitted a room; the claimed implication
holds for it. -/
theorem claim_C1_witness :
    (WalkEnd.closed, true) ∈ (buildRun initGraph squareSegs).2 ∧
    ((WalkEnd.closed, true).1 = WalkEnd.closed ∧
     ((WalkEnd.closed, true).1 ≠ WalkEnd.closed →
       (WalkEnd.closed, true).2 = false)) :=
  ⟨by decide, claim_C1 initGraph squareSegs (WalkEnd.closed, true) (by decide)⟩

theorem build_empty (g : RoomGraph) (segs : List Segment)
    (hemp : segs.isEmpty = true) :
    build g segs = clear g := by
  unfold build buildRun
  dsimp only
  rw [if_pos hemp]

theorem build_edges_split (g : RoomGraph) (segs : List Segment)
    (hemp : segs.isEmpty = false) :
    (build g segs).m_edges =
      (walkCycles (buildNextRelations (sortOutgoingByAngle
        (buildNodesAndEdges (clear g) segs)))).1.m_edges := by
  unfold build buildRun
  dsimp only
  rw [if_neg (by rw [hemp]; exact Bool.false_ne_true)]

/-- C7: in the built graph every half-edge's stored id equals its array
index, and its twin is the other member of its creation pair: the twin
fields point at each other and the two ids are consecutive (`i` even
pairs with `i + 1`). -/
theorem claim_C7 (g : RoomGraph) (segs : List Segment) (i : Nat)
    (h : i < (build g segs).m_edges.length) :
    (edgeAt (build g segs).m_edges (i : Int)).id = (i : Int) ∧
    ∃ j : Nat, j < (build g segs).m_edges.length ∧
      (edgeAt (build g segs).m_edges (i : Int)).twin = (j : Int) ∧
      (edgeAt (build g segs).m_edges (j : Int)).twin = (i : Int) ∧
      (edgeAt (build g segs).m_edges (j : Int)).id = (j : Int) ∧
      (j = i + 1 ∨ i = j + 1) := by
  cases hemp : segs.isEmpty with
  | true =>
      rw [build_empty g segs hemp] at h
      simp [clear] at h
  | false =>
      rw [build_edges_split g segs hemp] at h ⊢
      obtain ⟨hwf3, hau3, hwwf3⟩ := build_pipeline g segs
      have hSM := (walkCycles_results _ hwwf3 hau3).1
      have hlen := hSM.1
      have hi3 : i < (buildNextRelations (sortOutgoingByAngle
          (buildNodesAndEdges (clear g) segs))).m_edges.length := by
        rw [← hlen]; exact h
      have hflds := sameMod_fields hSM i hi3
      have hjlt := twinIdx_lt _ i hwf3.evenE hi3
      have hfldsj := sameMod_fields hSM (twinIdx i) hjlt
      refine ⟨?_, twinIdx i, ?_, ?_, ?_, ?_, ?_⟩
      · rw [hflds.1, hwf3.idEq i hi3]
      · rw [hlen]; exact hjlt
      · rw [hflds.2.2.2.1, hwf3.twinEq i hi3]
      · rw [hfldsj.2.2.2.1, hwf3.twinEq (twinIdx i) hjlt, twinIdx_twinIdx]
      · rw [hfldsj.1, hwf3.idEq (twinIdx i) hjlt]
      · unfold twinIdx
        split
        · omega
        · next hodd => omega

unseal Rat.add Rat.mul Rat.inv Rat.sub in
/-- C7 (witness): edge 0 of the built square graph has id 0 and twin 1,
with edge 1 pointing back and ids consecutive. -/
theorem claim_C7_witness :
    0 < (build initGraph squareSegs).m_edges.length ∧
    ((edgeAt (build initGraph squareSegs).m_edges ((0 : Nat) : Int)).id
        = ((0 : Nat) : Int) ∧
     ∃ j : Nat, j < (build initGraph squareSegs).m_edges.length ∧
       (edgeAt (build initGraph squareSegs).m_edges ((0 : Nat) : Int)).twin
          = (j : Int) ∧
       (edgeAt (build initGraph squareSegs).m_edges (j : Int)).twin
          = ((0 : Nat) : Int) ∧
       (edgeAt (build initGraph squareSegs).m_edges (j : Int)).id = (j : Int) ∧
       (j = 0 + 1 ∨ 0 = j + 1)) :=
  ⟨by decide, claim_C7 initGraph squareSegs 0 (by decide)⟩

/-- C8: after `buildNextRelations` (within any build pipeline), each
half-edge's `next` is either unset (`-1`) or a valid array index distinct
from the edge's own id; on a well-formed graph the second branch in fact
always holds. -/
theorem claim_C8 (g : RoomGraph) (segs : List Segment) (i : Nat)
    (h : i < (buildNextRelations (sortOutgoingByAngle
      (buildNodesAndEdges (clear g) segs))).m_edges.length) :
    (edgeAt (buildNextRelations (sortOutgoingByAngle
        (buildNodesAndEdges (clear g) segs))).m_edges (i : Int)).next = -1 ∨
    (0 ≤ (edgeAt (buildNextRelations (sortOutgoingByAngle
        (buildNodesAndEdges (clear g) segs))).m_edges (i : Int)).next ∧
     (edgeAt (buildNextRelations (sortOutgoingByAngle
        (buildNodesAndEdges (clear g) segs))).m_edges (i : Int)).next <
       ((buildNextRelations (sortOutgoingByAngle
        (buildNodesAndEdges (clear g) segs))).m_edges.length : Int) ∧
     (edgeAt (buildNextRelations (sortOutgoingByAngle
        (buildNodesAndEdges (clear g) segs))).m_edges (i : Int)).next ≠
       (edgeAt (buildNextRelations (sortOutgoingByAngle
        (buildNodesAndEdges (clear g) segs))).m_edges (i : Int)).id) := by
  obtain ⟨h1, hu1⟩ := buildNodesAndEdges_wf segs (clear g)
    (graphWF_clear g) (allUnused_clear g)
  have h2 := sortOutgoingByAngle_wf _ h1
  have h3 := buildNextRelations_wf _ h2
  have hlen := buildNextRelations_edges_length (sortOutgoingByAngle
    (buildNodesAndEdges (clear g) segs))
  have h' : i < (sortOutgoingByAngle
      (buildNodesAndEdges (clear g) segs)).m_edges.length := by
    rw [← hlen]; exact h
  right
  have ht := buildNext_nextTotal _ h2 i h'
  refine ⟨ht.1, ?_, ?_⟩
  · rw [hlen]
    exact ht.2.1
  · rw [h3.idEq i h]
    exact buildNext_ne_self _ h2 i h'

unseal Rat.add Rat.mul Rat.inv Rat.sub in
/-- C8 (witness): edge 0 of the square pipeline after
`buildNextRelations` has a set, valid `next` different from its own id. -/
theorem claim_C8_witness :
    0 < (buildNextRelations (sortOutgoingByAngle
      (buildNodesAndEdges (clear initGraph) squareSegs))).m_edges.length ∧
    ((edgeAt (buildNextRelations (sortOutgoingByAngle
        (buildNodesAndEdges (clear initGraph) squareSegs))).m_edges
          ((0 : Nat) : Int)).next = -1 ∨
     (0 ≤ (edgeAt (buildNextRelations (sortOutgoingByAngle
        (buildNodesAndEdges (clear initGraph) squareSegs))).m_edges
          ((0 : Nat) : Int)).next ∧
      (edgeAt (buildNextRelations (sortOutgoingByAngle
        (buildNodesAndEdges (clear initGraph) squareSegs))).m_edges
          ((0 : Nat) : Int)).next <
        ((buildNextRelations (sortOutgoingByAngle
          (buildNodesAndEdges (clear initGraph) squareSegs))).m_edges.length : Int) ∧
      (edgeAt (buildNextRelations (sortOutgoingByAngle
        (buildNodesAndEdges (clear initGraph) squareSegs))).m_edges
          ((0 : Nat) : Int)).next ≠
        (edgeAt (buildNextRelations (sortOutgoingByAngle
          (buildNodesAndEdges (clear initGraph) squareSegs))).m_edges
            ((0 : Nat) : Int)).id)) :=
  ⟨by decide, claim_C8 initGraph squareSegs 0 (by decide)⟩

end RoomDetect
